import Mathlib

/-!
Verification of the request-coalescing ("single-flight") coordinator of
`shared-call-py`.

The coordinator (`src/src/_sync.py`, class `SharedCall`, and its
line-for-line twin `src/src/_async.py`, class `AsyncSharedCall`) keeps

  * a registry `self.in_flight : dict[str, SyncCall]` mapping keys to the
    pending call record of the currently executing leader,
  * a statistics record `self.stats` with counters
    `hits / misses / errors / in_flight`,
  * a heap of `SyncCall` objects, each holding a `Result` cell and a
    completion `Event`.

Concurrent callers run `SharedCall.call`; all registry and stats accesses
happen inside `with self.lock:` blocks, the work function and the event
operations run outside the lock.  We embed this as an interleaving
small-step transition system: a configuration holds the per-thread program
counters (`Phase`) plus the shared state, and every atomic region of the
Python source (one lock-protected block, one work-function invocation, one
event operation) is one labelled transition.  The async variant has the
identical algorithm with `asyncio` primitives instead of `threading`
primitives, so the same transition system models both.

`SyncCall` objects are identified by the index into the list of all
records ever allocated (modelling Python object identity); values and
exceptions carried by the work function are abstracted to `Nat` codes.
-/

/-- A terminated work-function invocation: either a returned value or a
raised exception (both abstracted to numeric codes). -/
inductive Outcome
  | ok (v : Nat)
  | err (e : Nat)
deriving DecidableEq

/-- Modelled from the spec: `Result` from `src/_core.py` (the module is not
under `src/`; spec §3 "Data Model"): a tagged union over
{unset, success(value), failure(error)}. -/
inductive Result
  | unset
  | value (v : Nat)
  | error (e : Nat)
deriving DecidableEq

/-- Modelled from the spec: reading a `Result` at return time
(`fn_call.result.unwrap()`): a success returns the value, a failure
re-raises the same error object; reading `unset` is the internal
programming-logic error the spec says is never exposed, modelled as
`none`. -/
def Result.unwrapO : Result → Option Outcome
  | .unset => none
  | .value v => some (.ok v)
  | .error e => some (.err e)

/-- `Result(value=...)` / `Result(error=...)` as written by the leader. -/
def outcomeRes : Outcome → Result
  | .ok v => .value v
  | .err _e => .error _e

/-- Error code stored in a written result, if any. -/
def errInc : Outcome → Nat
  | .ok _ => 0
  | .err _ => 1

/-- Modelled from the spec: `Stats` from `src/_core.py` (not under `src/`):
the four counters, zero-initialised by `Stats()`.  `in_flight` is a Python
`int`, which can go negative, hence `Int`. -/
structure Stats where
  hits : Nat
  misses : Nat
  errors : Nat
  in_flight : Int
deriving DecidableEq

/-- `Stats()`. -/
def Stats.init : Stats := ⟨0, 0, 0, 0⟩

/-- The evaluation of `generate_key(*args, **kwargs)` for a fixed argument
tuple: it either produces the fingerprint string or raises (e.g. for
non-serializable arguments). -/
inductive KeyGen
  | ok (s : String)
  | exc (e : Nat)
deriving DecidableEq

/-- The expression `f"{fn.__module__}.{fn.__name__}:{generate_key(*args, **kwargs)}"`
of `SharedCall.call`: the module-qualified function name joined by a dot,
then a colon, then the argument fingerprint; an exception from
`generate_key` propagates. -/
def autoKey (fmod fname : String) (gen : KeyGen) : KeyGen :=
  match gen with
  | .ok g => .ok (fmod ++ "." ++ fname ++ ":" ++ g)
  | .exc e => .exc e

/-- The key resolution at the top of `SharedCall.call`:
`if not key: key = f"..."`.  Python's `not key` is `True` both for `None`
and for the empty string, so an explicit `""` also triggers automatic
derivation. -/
def resolvedKey (key : Option String) (fmod fname : String) (gen : KeyGen) : KeyGen :=
  match key with
  | some k => if k = "" then autoKey fmod fname gen else .ok k
  | none => autoKey fmod fname gen

/-- `SyncCall` (= `AsyncCall`): one pending-call record holding the shared
`Result` cell and the state of its completion event (`event.is_set()`). -/
structure SyncCall where
  result : Result
  event : Bool
deriving DecidableEq

/-- The shared state of one `SharedCall` coordinator: the registry
`self.in_flight` (an association list with unique keys, keys mapping to
the identity of the pending record), the heap `calls` of all `SyncCall`
records ever allocated (index = object identity), and `self.stats`. -/
structure SharedCall where
  in_flight : List (String × Nat)
  calls : List SyncCall
  stats : Stats
deriving DecidableEq

/-- `SharedCall.__init__`: empty registry, fresh stats. -/
def SharedCall.init : SharedCall := ⟨[], [], Stats.init⟩

/-- Dictionary lookup `self.in_flight[key]` / `key in self.in_flight`. -/
def rlookup : List (String × Nat) → String → Option Nat
  | [], _ => none
  | p :: l, k => if p.1 = k then some p.2 else rlookup l k

/-- Dictionary removal `self.in_flight.pop(key, None)`.  Registry keys are
unique (an entry is inserted only when the key is absent), so removing
every pair with the key equals removing the single entry. -/
def rerase : List (String × Nat) → String → List (String × Nat)
  | [], _ => []
  | p :: l, k => if p.1 = k then rerase l k else p :: rerase l k

/-- Write the work function's outcome into a pending record
(`fn_call.result = Result(...)`), by heap identity. -/
def modifyCall (cs : List SyncCall) (cid : Nat) (f : SyncCall → SyncCall) : List SyncCall :=
  match cs, cid with
  | [], _ => []
  | c :: rest, 0 => f c :: rest
  | c :: rest, n + 1 => c :: modifyCall rest n f

/-- `SharedCall.get_stats`: a snapshot copy (`replace(self.stats)`) of the
counters, no mutation. -/
def SharedCall.get_stats (s : SharedCall) : Stats := s.stats

/-- `SharedCall.forget`: `self.in_flight.pop(key, None)` under the lock. -/
def SharedCall.forget (s : SharedCall) (k : String) : SharedCall :=
  ⟨rerase s.in_flight k, s.calls, s.stats⟩

/-- `SharedCall.forget_all`: `self.in_flight.clear()` under the lock. -/
def SharedCall.forget_all (s : SharedCall) : SharedCall :=
  ⟨[], s.calls, s.stats⟩

/-- `SharedCall.reset_stats`: `self.stats = Stats()` under the lock. -/
def SharedCall.reset_stats (s : SharedCall) : SharedCall :=
  ⟨s.in_flight, s.calls, Stats.init⟩

/-- What a finished invocation of `call` delivered to its caller. -/
inductive RetVal
  | keyFail (e : Nat)
  | ret (o : Option Outcome)
deriving DecidableEq

/-- Program counter of one caller thread inside `SharedCall.call`.  `start`
carries the call's arguments: the explicit `key` argument, the work
function's `__module__` and `__name__`, the behaviour of
`generate_key` on the argument tuple, and the outcome the work function
would produce if invoked.  The later phases mirror the source lines:
`running` = leader about to invoke `fn`, `finishing` = leader after the
`try` body / `except` block, about to run the `finally` registry
cleanup, `signaling` = leader about to run `fn_call.event.set()`,
`waiting` = blocked in `fn_call.event.wait()`. -/
inductive Phase
  | start (key : Option String) (fmod fname : String) (gen : KeyGen) (out : Outcome)
  | running (key : String) (cid : Nat) (out : Outcome)
  | finishing (key : String) (cid : Nat)
  | signaling (cid : Nat)
  | waiting (cid : Nat)
  | done (r : RetVal)
deriving DecidableEq

/-- A configuration: the program counters of all caller threads (index =
thread id) plus the coordinator's shared state. -/
structure Config where
  threads : List Phase
  shared : SharedCall
deriving DecidableEq

/-- Transition labels, recording which thread performed which atomic region
of `SharedCall.call`, or which maintenance method ran. -/
inductive Label
  | keyError (tid : Nat) (e : Nat)
  | lead (tid : Nat) (key : String) (cid : Nat)
  | follow (tid : Nat) (key : String) (cid : Nat)
  | work (tid : Nat) (cid : Nat)
  | cleanup (tid : Nat) (key : String) (cid : Nat)
  | setEvent (tid : Nat) (cid : Nat)
  | ret (tid : Nat) (cid : Nat)
  | forget (key : String)
  | forgetAll
  | resetStats
deriving DecidableEq

/-- One atomic step of the system.  Each constructor mirrors one atomic
region of `src/src/_sync.py` (equivalently `_async.py`):

* `keyError`: the key-derivation f-string raises before the lock is taken;
* `lead`: the lock-protected `else` branch of registration
  (`misses += 1; in_flight += 1;` create record; insert);
* `follow`: the lock-protected `if key in self.in_flight` branch
  (`hits += 1`; capture record);
* `work`: the leader's `try` body / `except` block: the work function runs
  (outside the lock), its outcome is stored in the result cell, and on an
  exception `errors += 1`;
* `cleanup`: the lock-protected `finally` block:
  `self.in_flight.pop(key, None); self.stats.in_flight -= 1` —
  note the pop is unconditional on which record is registered;
* `setEvent`: `fn_call.event.set()` outside the lock;
* `ret`: `fn_call.event.wait()` returns (the event is set) and the caller
  returns `fn_call.result.unwrap()`;
* `forget` / `forgetAll` / `resetStats`: the maintenance methods. -/
inductive Step : Config → Label → Config → Prop
  | keyError {c : Config} {tid : Nat} {key fmod fname gen out e} :
      c.threads[tid]? = some (.start key fmod fname gen out) →
      resolvedKey key fmod fname gen = .exc e →
      Step c (.keyError tid e)
        ⟨c.threads.set tid (.done (.keyFail e)), c.shared⟩
  | lead {c : Config} {tid : Nat} {key fmod fname gen out k} :
      c.threads[tid]? = some (.start key fmod fname gen out) →
      resolvedKey key fmod fname gen = .ok k →
      rlookup c.shared.in_flight k = none →
      Step c (.lead tid k c.shared.calls.length)
        ⟨c.threads.set tid (.running k c.shared.calls.length out),
         ⟨(k, c.shared.calls.length) :: c.shared.in_flight,
          c.shared.calls ++ [⟨.unset, false⟩],
          ⟨c.shared.stats.hits, c.shared.stats.misses + 1,
           c.shared.stats.errors, c.shared.stats.in_flight + 1⟩⟩⟩
  | follow {c : Config} {tid : Nat} {key fmod fname gen out k cid} :
      c.threads[tid]? = some (.start key fmod fname gen out) →
      resolvedKey key fmod fname gen = .ok k →
      rlookup c.shared.in_flight k = some cid →
      Step c (.follow tid k cid)
        ⟨c.threads.set tid (.waiting cid),
         ⟨c.shared.in_flight, c.shared.calls,
          ⟨c.shared.stats.hits + 1, c.shared.stats.misses,
           c.shared.stats.errors, c.shared.stats.in_flight⟩⟩⟩
  | work {c : Config} {tid : Nat} {k cid out} :
      c.threads[tid]? = some (.running k cid out) →
      Step c (.work tid cid)
        ⟨c.threads.set tid (.finishing k cid),
         ⟨c.shared.in_flight,
          modifyCall c.shared.calls cid (fun pc => ⟨outcomeRes out, pc.event⟩),
          ⟨c.shared.stats.hits, c.shared.stats.misses,
           c.shared.stats.errors + errInc out, c.shared.stats.in_flight⟩⟩⟩
  | cleanup {c : Config} {tid : Nat} {k cid} :
      c.threads[tid]? = some (.finishing k cid) →
      Step c (.cleanup tid k cid)
        ⟨c.threads.set tid (.signaling cid),
         ⟨rerase c.shared.in_flight k, c.shared.calls,
          ⟨c.shared.stats.hits, c.shared.stats.misses,
           c.shared.stats.errors, c.shared.stats.in_flight - 1⟩⟩⟩
  | setEvent {c : Config} {tid : Nat} {cid} :
      c.threads[tid]? = some (.signaling cid) →
      Step c (.setEvent tid cid)
        ⟨c.threads.set tid (.waiting cid),
         ⟨c.shared.in_flight,
          modifyCall c.shared.calls cid (fun pc => ⟨pc.result, true⟩),
          c.shared.stats⟩⟩
  | ret {c : Config} {tid : Nat} {cid pc} :
      c.threads[tid]? = some (.waiting cid) →
      c.shared.calls[cid]? = some pc →
      pc.event = true →
      Step c (.ret tid cid)
        ⟨c.threads.set tid (.done (.ret pc.result.unwrapO)), c.shared⟩
  | forget {c : Config} {k} :
      Step c (.forget k) ⟨c.threads, c.shared.forget k⟩
  | forgetAll {c : Config} :
      Step c .forgetAll ⟨c.threads, c.shared.forget_all⟩
  | resetStats {c : Config} :
      Step c .resetStats ⟨c.threads, c.shared.reset_stats⟩

/-- A finite execution: a list of labelled steps. -/
inductive Steps : Config → List Label → Config → Prop
  | refl (c : Config) : Steps c [] c
  | cons {c₁ c₂ c₃ : Config} {l : Label} {tr : List Label} :
      Step c₁ l c₂ → Steps c₂ tr c₃ → Steps c₁ (l :: tr) c₃

/-- 1 on a `work` label (one invocation of the work function), else 0. -/
def workInd : Label → Nat
  | .work _ _ => 1
  | _ => 0

/-- 1 on a `lead` label (one caller becoming leader), else 0. -/
def leadInd : Label → Nat
  | .lead _ _ _ => 1
  | _ => 0

/-- Number of work-function invocations in a trace. -/
def countWork : List Label → Nat
  | [] => 0
  | l :: tr => workInd l + countWork tr

/-- Number of callers that became leader in a trace. -/
def countLead : List Label → Nat
  | [] => 0
  | l :: tr => leadInd l + countLead tr

/-- Labels produced by `call` itself (excludes the maintenance methods
`forget`, `forget_all`, `reset_stats`). -/
def isCall : Label → Bool
  | .forget _ => false
  | .forgetAll => false
  | .resetStats => false
  | _ => true

/-- Labels of a leader's `finally` registry cleanup. -/
def isCleanupL : Label → Bool
  | .cleanup _ _ _ => true
  | _ => false

/-- Registration labels: the steps by which a thread leaves its `start`
phase. -/
def isReg : Label → Bool
  | .keyError _ _ => true
  | .lead _ _ _ => true
  | .follow _ _ _ => true
  | _ => false

/-- Threads that have not yet entered `call`'s locked region. -/
def isStart : Phase → Bool
  | .start _ _ _ _ _ => true
  | _ => false

/-- Threads whose `call` has returned (or raised). -/
def isDone : Phase → Bool
  | .done _ => true
  | _ => false

/-- Every caller thread of the configuration has returned. -/
def allDone (c : Config) : Prop := ∀ ph ∈ c.threads, isDone ph = true

instance (c : Config) : Decidable (allDone c) :=
  inferInstanceAs (Decidable (∀ ph ∈ c.threads, isDone ph = true))

/-! ### Registry, heap and census helper lemmas -/

theorem rlookup_mem {l : List (String × Nat)} {k : String} {cid : Nat}
    (h : rlookup l k = some cid) : (k, cid) ∈ l := by
  induction l with
  | nil => simp [rlookup] at h
  | cons p rest ih =>
    obtain ⟨pk, pc⟩ := p
    by_cases hk : pk = k
    · subst hk
      simp [rlookup] at h
      subst h
      exact List.mem_cons_self _ _
    · simp [rlookup, hk] at h
      exact List.mem_cons_of_mem _ (ih h)

theorem rlookup_none_not_mem {l : List (String × Nat)} {k : String}
    (h : rlookup l k = none) : ∀ cid, (k, cid) ∉ l := by
  induction l with
  | nil => simp
  | cons p rest ih =>
    obtain ⟨pk, pc⟩ := p
    by_cases hk : pk = k
    · subst hk
      simp [rlookup] at h
    · simp [rlookup, hk] at h
      intro cid hmem
      rcases List.mem_cons.1 hmem with heq | hmem2
      · exact hk (congrArg Prod.fst heq).symm
      · exact ih h cid hmem2

theorem mem_rerase {l : List (String × Nat)} {k : String} {q : String × Nat}
    (h : q ∈ rerase l k) : q ∈ l ∧ q.1 ≠ k := by
  induction l with
  | nil => simp [rerase] at h
  | cons p rest ih =>
    obtain ⟨pk, pc⟩ := p
    by_cases hk : pk = k
    · subst hk
      simp [rerase] at h
      exact ⟨List.mem_cons_of_mem _ (ih h).1, (ih h).2⟩
    · simp [rerase, hk] at h
      rcases h with heq | hmem
      · subst heq
        exact ⟨List.mem_cons_self _ _, hk⟩
      · exact ⟨List.mem_cons_of_mem _ (ih hmem).1, (ih hmem).2⟩

theorem rlookup_rerase_self (l : List (String × Nat)) (k : String) :
    rlookup (rerase l k) k = none := by
  induction l with
  | nil => simp [rerase, rlookup]
  | cons p rest ih =>
    obtain ⟨pk, pc⟩ := p
    by_cases hk : pk = k
    · subst hk
      simp [rerase, ih]
    · simp [rerase, rlookup, hk, ih]

theorem rlookup_rerase_ne {l : List (String × Nat)} {k k' : String} (h : k' ≠ k) :
    rlookup (rerase l k) k' = rlookup l k' := by
  induction l with
  | nil => simp [rerase]
  | cons p rest ih =>
    obtain ⟨pk, pc⟩ := p
    by_cases hk : pk = k
    · simp [rerase, rlookup, hk, Ne.symm h, ih]
    · by_cases hk' : pk = k'
      · subst hk'
        simp [rerase, rlookup, hk]
      · simp [rerase, rlookup, hk, hk', ih]

/-- Keys of the registry. -/
def rkeys (l : List (String × Nat)) : List String := l.map Prod.fst

theorem rlookup_none_of_not_mem_keys {l : List (String × Nat)} {k : String}
    (h : k ∉ rkeys l) : rlookup l k = none := by
  induction l with
  | nil => simp [rlookup]
  | cons p rest ih =>
    obtain ⟨pk, pc⟩ := p
    simp [rkeys] at h
    simp [rlookup, Ne.symm h.1, ih (by simp [rkeys, h.2])]

theorem not_mem_keys_of_rlookup_none {l : List (String × Nat)} {k : String}
    (h : rlookup l k = none) : k ∉ rkeys l := by
  induction l with
  | nil => simp [rkeys]
  | cons p rest ih =>
    obtain ⟨pk, pc⟩ := p
    by_cases hk : pk = k
    · subst hk
      simp [rlookup] at h
    · simp [rlookup, hk] at h
      simp [rkeys, Ne.symm hk]
      have := ih h
      simpa [rkeys] using this

theorem rkeys_rerase_sublist (l : List (String × Nat)) (k : String) :
    (rkeys (rerase l k)).Sublist (rkeys l) := by
  induction l with
  | nil => simp [rerase, rkeys]
  | cons p rest ih =>
    obtain ⟨pk, pc⟩ := p
    by_cases hk : pk = k
    · subst hk
      simp only [rerase, if_pos rfl]
      exact List.Sublist.trans ih (by simp [rkeys])
    · simp only [rerase, if_neg hk]
      simpa [rkeys] using List.Sublist.cons₂ pk ih

/-- Erasing an absent key is a no-op (`pop(key, None)` on a missing key). -/
theorem rerase_eq_of_rlookup_none {l : List (String × Nat)} {k : String}
    (h : rlookup l k = none) : rerase l k = l := by
  induction l with
  | nil => simp [rerase]
  | cons p rest ih =>
    obtain ⟨pk, pc⟩ := p
    by_cases hk : pk = k
    · subst hk
      simp [rlookup] at h
    · simp [rlookup, hk] at h
      simp [rerase, hk, ih h]

/-- With unique keys, erasing a present key removes exactly one entry. -/
theorem length_rerase_of_mem {l : List (String × Nat)} {k : String} {cid : Nat}
    (hnd : (rkeys l).Nodup) (h : rlookup l k = some cid) :
    (rerase l k).length + 1 = l.length := by
  induction l with
  | nil => simp [rlookup] at h
  | cons p rest ih =>
    obtain ⟨pk, pc⟩ := p
    have hcons : rkeys ((pk, pc) :: rest) = pk :: rkeys rest := rfl
    rw [hcons, List.nodup_cons] at hnd
    by_cases hk : pk = k
    · subst hk
      have hnone : rlookup rest pk = none :=
        rlookup_none_of_not_mem_keys hnd.1
      simp [rerase, rerase_eq_of_rlookup_none hnone]
    · simp [rlookup, hk] at h
      simp only [rerase, if_neg hk, List.length_cons]
      rw [← ih hnd.2 h]

theorem modifyCall_length (cs : List SyncCall) (cid : Nat) (f : SyncCall → SyncCall) :
    (modifyCall cs cid f).length = cs.length := by
  induction cs generalizing cid with
  | nil => simp [modifyCall]
  | cons c rest ih =>
    cases cid with
    | zero => simp [modifyCall]
    | succ n => simp [modifyCall, ih]

theorem modifyCall_getElem_self {cs : List SyncCall} {cid : Nat} {pc : SyncCall}
    (f : SyncCall → SyncCall) (h : cs[cid]? = some pc) :
    (modifyCall cs cid f)[cid]? = some (f pc) := by
  induction cs generalizing cid with
  | nil => simp at h
  | cons c rest ih =>
    cases cid with
    | zero =>
      simp at h
      subst h
      simp [modifyCall]
    | succ n =>
      simp at h
      simpa [modifyCall] using ih h

theorem modifyCall_getElem_ne {cs : List SyncCall} {cid j : Nat}
    (f : SyncCall → SyncCall) (h : j ≠ cid) :
    (modifyCall cs cid f)[j]? = cs[j]? := by
  induction cs generalizing cid j with
  | nil => simp [modifyCall]
  | cons c rest ih =>
    cases cid with
    | zero =>
      cases j with
      | zero => exact absurd rfl h
      | succ m => simp [modifyCall]
    | succ n =>
      cases j with
      | zero => simp [modifyCall]
      | succ m =>
        simp only [modifyCall]
        simpa using ih (fun hc => h (by rw [hc]))

/-- Number of threads still in their `start` phase. -/
def countStart : List Phase → Nat
  | [] => 0
  | ph :: l => (if isStart ph then 1 else 0) + countStart l

theorem countStart_set_leave {l : List Phase} {i : Nat} {a b : Phase}
    (h : l[i]? = some a) (ha : isStart a = true) (hb : isStart b = false) :
    countStart (l.set i b) + 1 = countStart l := by
  induction l generalizing i with
  | nil => simp at h
  | cons c rest ih =>
    cases i with
    | zero =>
      simp at h
      subst h
      simp [countStart, ha, hb]
      omega
    | succ n =>
      simp at h
      have := ih h
      simp [countStart, List.set]
      omega

theorem countStart_set_same {l : List Phase} {i : Nat} {a b : Phase}
    (h : l[i]? = some a) (hab : isStart a = isStart b) :
    countStart (l.set i b) = countStart l := by
  induction l generalizing i with
  | nil => simp at h
  | cons c rest ih =>
    cases i with
    | zero =>
      simp at h
      subst h
      simp [countStart, hab]
    | succ n =>
      simp at h
      have := ih h
      simp [countStart, List.set]
      omega

theorem countStart_eq_zero {l : List Phase} (h : ∀ ph ∈ l, isStart ph = false) :
    countStart l = 0 := by
  induction l with
  | nil => rfl
  | cons c rest ih =>
    simp [countStart, h c (List.mem_cons_self _ _), ih (fun ph hm => h ph (List.mem_cons_of_mem _ hm))]

theorem countStart_eq_length {l : List Phase} (h : ∀ ph ∈ l, isStart ph = true) :
    countStart l = l.length := by
  induction l with
  | nil => rfl
  | cons c rest ih =>
    simp [countStart, h c (List.mem_cons_self _ _), ih (fun ph hm => h ph (List.mem_cons_of_mem _ hm))]
    omega

/-! ### Trace lemmas -/

theorem Steps.append_split {c c' : Config} {tr1 tr2 : List Label}
    (h : Steps c (tr1 ++ tr2) c') :
    ∃ cm, Steps c tr1 cm ∧ Steps cm tr2 c' := by
  induction tr1 generalizing c with
  | nil => exact ⟨c, Steps.refl c, h⟩
  | cons l tr ih =>
    cases h with
    | cons hstep hrest =>
      obtain ⟨cm, h1, h2⟩ := ih hrest
      exact ⟨cm, Steps.cons hstep h1, h2⟩

theorem countWork_append (tr1 tr2 : List Label) :
    countWork (tr1 ++ tr2) = countWork tr1 + countWork tr2 := by
  induction tr1 with
  | nil => simp [countWork]
  | cons l tr ih => simp [countWork, ih]; omega

theorem countLead_append (tr1 tr2 : List Label) :
    countLead (tr1 ++ tr2) = countLead tr1 + countLead tr2 := by
  induction tr1 with
  | nil => simp [countLead]
  | cons l tr ih => simp [countLead, ih]; omega

/-- Generic invariant-plus-counters induction over a trace: if every
allowed step preserves `P` and advances the work / lead counters by the
step's indicator, then a whole allowed trace does. -/
theorem steps_invariant {A : Label → Bool} {P : Config → Nat → Nat → Prop}
    (pres : ∀ c l c' nw nl, Step c l c' → A l = true → P c nw nl →
      P c' (nw + workInd l) (nl + leadInd l)) :
    ∀ {c tr c' nw nl}, Steps c tr c' → (∀ l ∈ tr, A l = true) → P c nw nl →
      P c' (nw + countWork tr) (nl + countLead tr) := by
  intro c tr c' nw nl hsteps
  induction hsteps generalizing nw nl with
  | refl c => intro _ hP; simpa [countWork, countLead] using hP
  | cons hstep hrest ih =>
    intro hall hP
    rename_i c₁ c₂ c₃ l tr'
    have h1 : P c₂ (nw + workInd l) (nl + leadInd l) :=
      pres _ _ _ _ _ hstep (hall l (List.mem_cons_self _ _)) hP
    have h2 := ih (fun l' hm => hall l' (List.mem_cons_of_mem _ hm)) h1
    have ew : nw + workInd l + countWork tr' = nw + countWork (l :: tr') := by
      simp [countWork]; omega
    have el : nl + leadInd l + countLead tr' = nl + countLead (l :: tr') := by
      simp [countLead]; omega
    rw [ew, el] at h2
    exact h2

/-- Step targets never shrink or grow the thread list. -/
theorem step_threads_length {c c' : Config} {l : Label} (h : Step c l c') :
    c'.threads.length = c.threads.length := by
  cases h <;> simp

theorem steps_threads_length {c c' : Config} {tr : List Label} (h : Steps c tr c') :
    c'.threads.length = c.threads.length := by
  induction h with
  | refl => rfl
  | cons hstep _ ih => rw [ih, step_threads_length hstep]

/-- A `start` thread is untouched by one non-registration step (only
`keyError` / `lead` / `follow` move a `start` thread, and every other step
leaves other threads' phases untouched). -/
theorem start_persists_step {c c' : Config} {l : Label}
    (hstep : Step c l c') (hl : isReg l = false) :
    ∀ (tid : Nat) (ph : Phase), isStart ph = true → c.threads[tid]? = some ph →
      c'.threads[tid]? = some ph := by
  intro tid ph hph hc
  cases hstep with
  | keyError h1 h2 => simp [isReg] at hl
  | lead h1 h2 h3 => simp [isReg] at hl
  | follow h1 h2 h3 => simp [isReg] at hl
  | work h1 =>
    rename_i tid' k cid out
    by_cases he : tid = tid'
    · subst he
      rw [hc] at h1
      cases h1
      simp [isStart] at hph
    · simpa [List.getElem?_set_ne (fun hx => he hx.symm)] using hc
  | cleanup h1 =>
    rename_i tid' k cid
    by_cases he : tid = tid'
    · subst he
      rw [hc] at h1
      cases h1
      simp [isStart] at hph
    · simpa [List.getElem?_set_ne (fun hx => he hx.symm)] using hc
  | setEvent h1 =>
    rename_i tid' cid
    by_cases he : tid = tid'
    · subst he
      rw [hc] at h1
      cases h1
      simp [isStart] at hph
    · simpa [List.getElem?_set_ne (fun hx => he hx.symm)] using hc
  | ret h1 h2 h3 =>
    rename_i tid' cid pc
    by_cases he : tid = tid'
    · subst he
      rw [hc] at h1
      cases h1
      simp [isStart] at hph
    · simpa [List.getElem?_set_ne (fun hx => he hx.symm)] using hc
  | forget => exact hc
  | forgetAll => exact hc
  | resetStats => exact hc

/-- A thread in its `start` phase stays there as long as no registration
step is taken. -/
theorem start_persists {c c' : Config} {tr : List Label}
    (hsteps : Steps c tr c') :
    (∀ l ∈ tr, isReg l = false) →
    ∀ (tid : Nat) (ph : Phase), isStart ph = true → c.threads[tid]? = some ph →
      c'.threads[tid]? = some ph := by
  induction hsteps with
  | refl => exact fun _ _ _ _ h => h
  | cons hstep hrest ih =>
    intro hnoreg tid ph hph hc
    refine ih (fun l' hm => hnoreg l' (List.mem_cons_of_mem _ hm)) tid ph hph ?_
    exact start_persists_step hstep (hnoreg _ (List.mem_cons_self _ _)) tid ph hph hc

/-! ### General reachability invariant

Holds in every configuration reachable from a fresh coordinator, whatever
mixture of `call`, `forget`, `forget_all` and `reset_stats` steps runs.
Its key clause `reg_event` is the spec's "no caller can attach as a new
follower to a PendingCall that has already resolved": every record still
reachable through the registry has an unset completion event. -/

theorem getElem?_some_lt {α : Type} {l : List α} {i : Nat} {a : α}
    (h : l[i]? = some a) : i < l.length := by
  by_contra hge
  push_neg at hge
  rw [List.getElem?_eq_none_iff.mpr hge] at h
  exact Option.noConfusion h

theorem getElem?_set_cases {α : Type} {l : List α} {i j : Nat} {b x : α}
    (h : (l.set i b)[j]? = some x) :
    (j = i ∧ x = b ∧ i < l.length) ∨ (j ≠ i ∧ l[j]? = some x) := by
  by_cases he : j = i
  · subst he
    have hlt : j < l.length := by simpa using getElem?_some_lt h
    rw [List.getElem?_set_self hlt] at h
    exact Or.inl ⟨rfl, (Option.some.inj h).symm, hlt⟩
  · exact Or.inr ⟨he, by rwa [List.getElem?_set_ne (fun hx => he hx.symm)] at h⟩

/-- The pending-record identity a thread currently holds a reference to. -/
def phaseCid : Phase → Option Nat
  | .running _ cid _ => some cid
  | .finishing _ cid => some cid
  | .signaling cid => some cid
  | .waiting cid => some cid
  | _ => none

theorem phaseCid_of_isStart {ph : Phase} (h : isStart ph = true) :
    phaseCid ph = none := by
  cases ph <;> simp_all [isStart, phaseCid]

structure SysInv (c : Config) : Prop where
  reg_lt : ∀ (k : String) (cid : Nat), (k, cid) ∈ c.shared.in_flight →
    cid < c.shared.calls.length
  phase_lt : ∀ (tid : Nat) (ph : Phase) (cid : Nat), c.threads[tid]? = some ph →
    phaseCid ph = some cid → cid < c.shared.calls.length
  reg_event : ∀ (k : String) (cid : Nat), (k, cid) ∈ c.shared.in_flight →
    ∃ pc, c.shared.calls[cid]? = some pc ∧ pc.event = false
  sig_not_reg : ∀ (tid : Nat) (cid : Nat), c.threads[tid]? = some (.signaling cid) →
    ∀ k, (k, cid) ∉ c.shared.in_flight
  owner_key : ∀ (tid : Nat) (k : String) (cid : Nat),
    (c.threads[tid]? = some (.finishing k cid) ∨
     ∃ out, c.threads[tid]? = some (.running k cid out)) →
    ∀ k', (k', cid) ∈ c.shared.in_flight → k' = k

theorem inv_init {c : Config} (hst : ∀ ph ∈ c.threads, isStart ph = true)
    (hsh : c.shared = SharedCall.init) : SysInv c := by
  constructor
  · intro k cid hmem
    rw [hsh] at hmem
    simp [SharedCall.init] at hmem
  · intro tid ph cid hph hcid
    have := phaseCid_of_isStart (hst ph (List.getElem?_mem hph))
    rw [this] at hcid
    exact Option.noConfusion hcid
  · intro k cid hmem
    rw [hsh] at hmem
    simp [SharedCall.init] at hmem
  · intro tid cid hph k hmem
    have := phaseCid_of_isStart (hst _ (List.getElem?_mem hph))
    simp [phaseCid] at this
  · intro tid k cid hph k' hmem
    rcases hph with h | ⟨out, h⟩
    · have := phaseCid_of_isStart (hst _ (List.getElem?_mem h))
      simp [phaseCid] at this
    · have := phaseCid_of_isStart (hst _ (List.getElem?_mem h))
      simp [phaseCid] at this

theorem sysInv_step {c c' : Config} {l : Label} (hstep : Step c l c')
    (hinv : SysInv c) : SysInv c' := by
  cases hstep with
  | keyError h1 h2 =>
    rename_i tid' key fmod fname gen out e
    constructor
    · exact hinv.reg_lt
    · intro tid ph cid hph hcid
      rcases getElem?_set_cases hph with ⟨_, rfl, _⟩ | ⟨_, hold⟩
      · simp [phaseCid] at hcid
      · exact hinv.phase_lt tid ph cid hold hcid
    · exact hinv.reg_event
    · intro tid cid hph k hmem
      rcases getElem?_set_cases hph with ⟨_, heq, _⟩ | ⟨_, hold⟩
      · exact Phase.noConfusion heq
      · exact hinv.sig_not_reg tid cid hold k hmem
    · intro tid k cid hph k' hmem
      rcases hph with hf | ⟨o, hr⟩
      · rcases getElem?_set_cases hf with ⟨_, heq, _⟩ | ⟨_, hold⟩
        · exact Phase.noConfusion heq
        · exact hinv.owner_key tid k cid (Or.inl hold) k' hmem
      · rcases getElem?_set_cases hr with ⟨_, heq, _⟩ | ⟨_, hold⟩
        · exact Phase.noConfusion heq
        · exact hinv.owner_key tid k cid (Or.inr ⟨o, hold⟩) k' hmem
  | lead h1 h2 h3 =>
    rename_i tid' key fmod fname gen out k
    constructor
    · intro k0 cid0 hmem
      rcases List.mem_cons.1 hmem with heq | hmem2
      · have hc : cid0 = c.shared.calls.length := congrArg Prod.snd heq
        subst hc
        simp
      · have := hinv.reg_lt k0 cid0 hmem2
        simp
        omega
    · intro tid ph cid hph hcid
      rcases getElem?_set_cases hph with ⟨_, rfl, _⟩ | ⟨_, hold⟩
      · simp [phaseCid] at hcid
        simp [hcid]
      · have := hinv.phase_lt tid ph cid hold hcid
        simp
        omega
    · intro k0 cid0 hmem
      rcases List.mem_cons.1 hmem with heq | hmem2
      · have hc : cid0 = c.shared.calls.length := congrArg Prod.snd heq
        subst hc
        exact ⟨⟨.unset, false⟩, List.getElem?_concat_length _ _, rfl⟩
      · obtain ⟨pc, hpc, hev⟩ := hinv.reg_event k0 cid0 hmem2
        refine ⟨pc, ?_, hev⟩
        rw [List.getElem?_append_left (hinv.reg_lt k0 cid0 hmem2)]
        exact hpc
    · intro tid cid hph k0 hmem
      rcases getElem?_set_cases hph with ⟨_, heq, _⟩ | ⟨hne, hold⟩
      · exact Phase.noConfusion heq
      · have hlt := hinv.phase_lt tid _ cid hold (by simp [phaseCid])
        rcases List.mem_cons.1 hmem with heq2 | hmem2
        · have : cid = c.shared.calls.length := congrArg Prod.snd heq2
          omega
        · exact hinv.sig_not_reg tid cid hold k0 hmem2
    · intro tid k0 cid0 hph k' hmem
      rcases hph with hf | ⟨o, hr⟩
      · rcases getElem?_set_cases hf with ⟨_, heq, _⟩ | ⟨hne, hold⟩
        · exact Phase.noConfusion heq
        · have hlt := hinv.phase_lt tid _ cid0 hold (by simp [phaseCid])
          rcases List.mem_cons.1 hmem with heq2 | hmem2
          · have : cid0 = c.shared.calls.length := congrArg Prod.snd heq2
            omega
          · exact hinv.owner_key tid k0 cid0 (Or.inl hold) k' hmem2
      · rcases getElem?_set_cases hr with ⟨_, heq, _⟩ | ⟨hne, hold⟩
        · injection heq with e1 e2 e3
          subst e1
          subst e2
          rcases List.mem_cons.1 hmem with heq2 | hmem2
          · exact congrArg Prod.fst heq2
          · have := hinv.reg_lt k' _ hmem2
            omega
        · have hlt := hinv.phase_lt tid _ cid0 hold (by simp [phaseCid])
          rcases List.mem_cons.1 hmem with heq2 | hmem2
          · have : cid0 = c.shared.calls.length := congrArg Prod.snd heq2
            omega
          · exact hinv.owner_key tid k0 cid0 (Or.inr ⟨o, hold⟩) k' hmem2
  | follow h1 h2 h3 =>
    rename_i tid' key fmod fname gen out k cid'
    constructor
    · exact hinv.reg_lt
    · intro tid ph cid hph hcid
      rcases getElem?_set_cases hph with ⟨_, rfl, _⟩ | ⟨_, hold⟩
      · simp [phaseCid] at hcid
        subst hcid
        exact hinv.reg_lt k cid' (rlookup_mem h3)
      · exact hinv.phase_lt tid ph cid hold hcid
    · exact hinv.reg_event
    · intro tid cid hph k0 hmem
      rcases getElem?_set_cases hph with ⟨_, heq, _⟩ | ⟨_, hold⟩
      · exact Phase.noConfusion heq
      · exact hinv.sig_not_reg tid cid hold k0 hmem
    · intro tid k0 cid0 hph k' hmem
      rcases hph with hf | ⟨o, hr⟩
      · rcases getElem?_set_cases hf with ⟨_, heq, _⟩ | ⟨_, hold⟩
        · exact Phase.noConfusion heq
        · exact hinv.owner_key tid k0 cid0 (Or.inl hold) k' hmem
      · rcases getElem?_set_cases hr with ⟨_, heq, _⟩ | ⟨_, hold⟩
        · exact Phase.noConfusion heq
        · exact hinv.owner_key tid k0 cid0 (Or.inr ⟨o, hold⟩) k' hmem
  | work h1 =>
    rename_i tid' k cid' out
    constructor
    · intro k0 cid0 hmem
      have := hinv.reg_lt k0 cid0 hmem
      simpa [modifyCall_length] using this
    · intro tid ph cid hph hcid
      rcases getElem?_set_cases hph with ⟨_, rfl, _⟩ | ⟨_, hold⟩
      · simp [phaseCid] at hcid
        subst hcid
        have := hinv.phase_lt tid' _ cid' h1 (by simp [phaseCid])
        simpa [modifyCall_length] using this
      · have := hinv.phase_lt tid ph cid hold hcid
        simpa [modifyCall_length] using this
    · intro k0 cid0 hmem
      obtain ⟨pc, hpc, hev⟩ := hinv.reg_event k0 cid0 hmem
      by_cases he : cid0 = cid'
      · subst he
        exact ⟨⟨outcomeRes out, pc.event⟩, modifyCall_getElem_self _ hpc, hev⟩
      · exact ⟨pc, by rwa [modifyCall_getElem_ne _ he], hev⟩
    · intro tid cid hph k0 hmem
      rcases getElem?_set_cases hph with ⟨_, heq, _⟩ | ⟨_, hold⟩
      · exact Phase.noConfusion heq
      · exact hinv.sig_not_reg tid cid hold k0 hmem
    · intro tid k0 cid0 hph k' hmem
      rcases hph with hf | ⟨o, hr⟩
      · rcases getElem?_set_cases hf with ⟨_, heq, _⟩ | ⟨_, hold⟩
        · injection heq with e1 e2
          subst e1
          subst e2
          exact hinv.owner_key tid' k0 cid0 (Or.inr ⟨out, h1⟩) k' hmem
        · exact hinv.owner_key tid k0 cid0 (Or.inl hold) k' hmem
      · rcases getElem?_set_cases hr with ⟨_, heq, _⟩ | ⟨_, hold⟩
        · exact Phase.noConfusion heq
        · exact hinv.owner_key tid k0 cid0 (Or.inr ⟨o, hold⟩) k' hmem
  | cleanup h1 =>
    rename_i tid' k cid'
    constructor
    · intro k0 cid0 hmem
      exact hinv.reg_lt k0 cid0 (mem_rerase hmem).1
    · intro tid ph cid hph hcid
      rcases getElem?_set_cases hph with ⟨_, rfl, _⟩ | ⟨_, hold⟩
      · simp [phaseCid] at hcid
        subst hcid
        exact hinv.phase_lt tid' _ cid' h1 (by simp [phaseCid])
      · exact hinv.phase_lt tid ph cid hold hcid
    · intro k0 cid0 hmem
      exact hinv.reg_event k0 cid0 (mem_rerase hmem).1
    · intro tid cid hph k0 hmem
      obtain ⟨hmem2, hkne⟩ := mem_rerase hmem
      rcases getElem?_set_cases hph with ⟨_, heq, _⟩ | ⟨_, hold⟩
      · injection heq with e1
        subst e1
        exact hkne (hinv.owner_key tid' k cid (Or.inl h1) k0 hmem2)
      · exact hinv.sig_not_reg tid cid hold k0 hmem2
    · intro tid k0 cid0 hph k' hmem
      obtain ⟨hmem2, _⟩ := mem_rerase hmem
      rcases hph with hf | ⟨o, hr⟩
      · rcases getElem?_set_cases hf with ⟨_, heq, _⟩ | ⟨_, hold⟩
        · exact Phase.noConfusion heq
        · exact hinv.owner_key tid k0 cid0 (Or.inl hold) k' hmem2
      · rcases getElem?_set_cases hr with ⟨_, heq, _⟩ | ⟨_, hold⟩
        · exact Phase.noConfusion heq
        · exact hinv.owner_key tid k0 cid0 (Or.inr ⟨o, hold⟩) k' hmem2
  | setEvent h1 =>
    rename_i tid' cid'
    constructor
    · intro k0 cid0 hmem
      have := hinv.reg_lt k0 cid0 hmem
      simpa [modifyCall_length] using this
    · intro tid ph cid hph hcid
      rcases getElem?_set_cases hph with ⟨_, rfl, _⟩ | ⟨_, hold⟩
      · simp [phaseCid] at hcid
        subst hcid
        have := hinv.phase_lt tid' _ cid' h1 (by simp [phaseCid])
        simpa [modifyCall_length] using this
      · have := hinv.phase_lt tid ph cid hold hcid
        simpa [modifyCall_length] using this
    · intro k0 cid0 hmem
      obtain ⟨pc, hpc, hev⟩ := hinv.reg_event k0 cid0 hmem
      by_cases he : cid0 = cid'
      · subst he
        exact absurd hmem (hinv.sig_not_reg tid' cid0 h1 k0)
      · exact ⟨pc, by rwa [modifyCall_getElem_ne _ he], hev⟩
    · intro tid cid hph k0 hmem
      rcases getElem?_set_cases hph with ⟨_, heq, _⟩ | ⟨_, hold⟩
      · exact Phase.noConfusion heq
      · exact hinv.sig_not_reg tid cid hold k0 hmem
    · intro tid k0 cid0 hph k' hmem
      rcases hph with hf | ⟨o, hr⟩
      · rcases getElem?_set_cases hf with ⟨_, heq, _⟩ | ⟨_, hold⟩
        · exact Phase.noConfusion heq
        · exact hinv.owner_key tid k0 cid0 (Or.inl hold) k' hmem
      · rcases getElem?_set_cases hr with ⟨_, heq, _⟩ | ⟨_, hold⟩
        · exact Phase.noConfusion heq
        · exact hinv.owner_key tid k0 cid0 (Or.inr ⟨o, hold⟩) k' hmem
  | ret h1 h2 h3 =>
    rename_i tid' cid' pc
    constructor
    · exact hinv.reg_lt
    · intro tid ph cid hph hcid
      rcases getElem?_set_cases hph with ⟨_, rfl, _⟩ | ⟨_, hold⟩
      · simp [phaseCid] at hcid
      · exact hinv.phase_lt tid ph cid hold hcid
    · exact hinv.reg_event
    · intro tid cid hph k0 hmem
      rcases getElem?_set_cases hph with ⟨_, heq, _⟩ | ⟨_, hold⟩
      · exact Phase.noConfusion heq
      · exact hinv.sig_not_reg tid cid hold k0 hmem
    · intro tid k0 cid0 hph k' hmem
      rcases hph with hf | ⟨o, hr⟩
      · rcases getElem?_set_cases hf with ⟨_, heq, _⟩ | ⟨_, hold⟩
        · exact Phase.noConfusion heq
        · exact hinv.owner_key tid k0 cid0 (Or.inl hold) k' hmem
      · rcases getElem?_set_cases hr with ⟨_, heq, _⟩ | ⟨_, hold⟩
        · exact Phase.noConfusion heq
        · exact hinv.owner_key tid k0 cid0 (Or.inr ⟨o, hold⟩) k' hmem
  | forget =>
    rename_i k
    constructor
    · intro k0 cid0 hmem
      exact hinv.reg_lt k0 cid0 (mem_rerase hmem).1
    · exact hinv.phase_lt
    · intro k0 cid0 hmem
      exact hinv.reg_event k0 cid0 (mem_rerase hmem).1
    · intro tid cid hph k0 hmem
      exact hinv.sig_not_reg tid cid hph k0 (mem_rerase hmem).1
    · intro tid k0 cid0 hph k' hmem
      exact hinv.owner_key tid k0 cid0 hph k' (mem_rerase hmem).1
  | forgetAll =>
    constructor
    · intro k0 cid0 hmem
      simp [SharedCall.forget_all] at hmem
    · exact hinv.phase_lt
    · intro k0 cid0 hmem
      simp [SharedCall.forget_all] at hmem
    · intro tid cid hph k0 hmem
      simp [SharedCall.forget_all] at hmem
    · intro tid k0 cid0 hph k' hmem
      simp [SharedCall.forget_all] at hmem
  | resetStats =>
    constructor
    · exact hinv.reg_lt
    · exact hinv.phase_lt
    · exact hinv.reg_event
    · exact hinv.sig_not_reg
    · exact hinv.owner_key

theorem sysInv_steps {c c' : Config} {tr : List Label}
    (hsteps : Steps c tr c') (hinv : SysInv c) : SysInv c' := by
  induction hsteps with
  | refl => exact hinv
  | cons hstep _ ih => exact ih (sysInv_step hstep hinv)

/-! ### Call-only invariant: `stats.in_flight` counts registered keys

As long as only `call` steps run (no `forget` / `forget_all` /
`reset_stats`), the `in_flight` counter equals the number of registry
entries at every point where the lock is free. -/

/-- A thread that has registered as leader and not yet executed its
`finally` block for key `k` and record `cid`. -/
def activeLeader (ph : Phase) (k : String) (cid : Nat) : Prop :=
  ph = .finishing k cid ∨ ∃ out, ph = .running k cid out

theorem activeLeader_phaseCid {ph : Phase} {k : String} {cid : Nat}
    (h : activeLeader ph k cid) : phaseCid ph = some cid := by
  rcases h with rfl | ⟨o, rfl⟩ <;> simp [phaseCid]

structure CallInv (c : Config) : Prop where
  keys_nodup : (rkeys c.shared.in_flight).Nodup
  reg_lt : ∀ (k : String) (cid : Nat), (k, cid) ∈ c.shared.in_flight →
    cid < c.shared.calls.length
  active_lt : ∀ (tid : Nat) (ph : Phase) (k : String) (cid : Nat),
    c.threads[tid]? = some ph → activeLeader ph k cid →
    cid < c.shared.calls.length
  active_reg : ∀ (tid : Nat) (ph : Phase) (k : String) (cid : Nat),
    c.threads[tid]? = some ph → activeLeader ph k cid →
    rlookup c.shared.in_flight k = some cid
  active_inj : ∀ (t1 t2 : Nat) (p1 p2 : Phase) (k1 k2 : String) (d1 d2 : Nat),
    t1 ≠ t2 → c.threads[t1]? = some p1 → c.threads[t2]? = some p2 →
    activeLeader p1 k1 d1 → activeLeader p2 k2 d2 → d1 ≠ d2
  flight_len : c.shared.stats.in_flight = (c.shared.in_flight.length : Int)

theorem callInv_init {c : Config} (hst : ∀ ph ∈ c.threads, isStart ph = true)
    (hsh : c.shared = SharedCall.init) : CallInv c := by
  have hact : ∀ (tid : Nat) (ph : Phase) (k : String) (cid : Nat),
      c.threads[tid]? = some ph → ¬ activeLeader ph k cid := by
    intro tid ph k cid hph hal
    have h1 := phaseCid_of_isStart (hst ph (List.getElem?_mem hph))
    rw [activeLeader_phaseCid hal] at h1
    exact Option.noConfusion h1
  constructor
  · rw [hsh]
    simp [SharedCall.init, rkeys]
  · intro k cid hmem
    rw [hsh] at hmem
    simp [SharedCall.init] at hmem
  · intro tid ph k cid hph hal
    exact absurd hal (hact tid ph k cid hph)
  · intro tid ph k cid hph hal
    exact absurd hal (hact tid ph k cid hph)
  · intro t1 t2 p1 p2 k1 k2 d1 d2 hne h1 h2 ha1 ha2
    exact absurd ha1 (hact t1 p1 k1 d1 h1)
  · rw [hsh]
    simp [SharedCall.init, Stats.init]

theorem activeLeader_not_start {key fmod fname gen out k cid} :
    ¬ activeLeader (.start key fmod fname gen out) k cid := by
  rintro (h | ⟨o, h⟩) <;> exact Phase.noConfusion h

theorem activeLeader_not_signaling {cid0 k cid} :
    ¬ activeLeader (.signaling cid0) k cid := by
  rintro (h | ⟨o, h⟩) <;> exact Phase.noConfusion h

theorem activeLeader_not_waiting {cid0 k cid} :
    ¬ activeLeader (.waiting cid0) k cid := by
  rintro (h | ⟨o, h⟩) <;> exact Phase.noConfusion h

theorem activeLeader_not_done {r k cid} :
    ¬ activeLeader (.done r) k cid := by
  rintro (h | ⟨o, h⟩) <;> exact Phase.noConfusion h

theorem callInv_step {c c' : Config} {l : Label} (hstep : Step c l c')
    (hcall : isCall l = true) (hinv : CallInv c) : CallInv c' := by
  cases hstep with
  | keyError h1 h2 =>
    rename_i tid' key fmod fname gen out e
    constructor
    · exact hinv.keys_nodup
    · exact hinv.reg_lt
    · intro tid ph k cid hph hal
      rcases getElem?_set_cases hph with ⟨_, rfl, _⟩ | ⟨_, hold⟩
      · exact absurd hal activeLeader_not_done
      · exact hinv.active_lt tid ph k cid hold hal
    · intro tid ph k cid hph hal
      rcases getElem?_set_cases hph with ⟨_, rfl, _⟩ | ⟨_, hold⟩
      · exact absurd hal activeLeader_not_done
      · exact hinv.active_reg tid ph k cid hold hal
    · intro t1 t2 p1 p2 k1 k2 d1 d2 hne hp1 hp2 ha1 ha2
      rcases getElem?_set_cases hp1 with ⟨_, rfl, _⟩ | ⟨_, ho1⟩
      · exact absurd ha1 activeLeader_not_done
      · rcases getElem?_set_cases hp2 with ⟨_, rfl, _⟩ | ⟨_, ho2⟩
        · exact absurd ha2 activeLeader_not_done
        · exact hinv.active_inj t1 t2 p1 p2 k1 k2 d1 d2 hne ho1 ho2 ha1 ha2
    · exact hinv.flight_len
  | lead h1 h2 h3 =>
    rename_i tid' key fmod fname gen out k
    have hnotin : k ∉ rkeys c.shared.in_flight := not_mem_keys_of_rlookup_none h3
    constructor
    · exact List.nodup_cons.2 ⟨hnotin, hinv.keys_nodup⟩
    · intro k0 cid0 hmem
      rcases List.mem_cons.1 hmem with heq | hmem2
      · have hc : cid0 = c.shared.calls.length := congrArg Prod.snd heq
        subst hc
        simp
      · have := hinv.reg_lt k0 cid0 hmem2
        simp
        omega
    · intro tid ph k0 cid hph hal
      rcases getElem?_set_cases hph with ⟨_, rfl, _⟩ | ⟨_, hold⟩
      · have := activeLeader_phaseCid hal
        simp [phaseCid] at this
        simp [this]
      · have := hinv.active_lt tid ph k0 cid hold hal
        simp
        omega
    · intro tid ph k0 cid hph hal
      rcases getElem?_set_cases hph with ⟨_, rfl, _⟩ | ⟨_, hold⟩
      · rcases hal with heq | ⟨o, heq⟩
        · exact Phase.noConfusion heq
        · injection heq with e1 e2 e3
          subst e1
          subst e2
          simp [rlookup]
      · have hreg := hinv.active_reg tid ph k0 cid hold hal
        have hk0 : ¬ k = k0 := by
          intro hk
          subst hk
          rw [h3] at hreg
          exact Option.noConfusion hreg
        simp [rlookup, hk0]
        exact hreg
    · intro t1 t2 p1 p2 k1 k2 d1 d2 hne hp1 hp2 ha1 ha2
      rcases getElem?_set_cases hp1 with ⟨he1, rfl, _⟩ | ⟨hn1, ho1⟩
      · have hd1 := activeLeader_phaseCid ha1
        simp [phaseCid] at hd1
        rcases getElem?_set_cases hp2 with ⟨he2, rfl, _⟩ | ⟨hn2, ho2⟩
        · exact absurd (he1.trans he2.symm) hne
        · have := hinv.active_lt t2 p2 k2 d2 ho2 ha2
          omega
      · rcases getElem?_set_cases hp2 with ⟨he2, rfl, _⟩ | ⟨hn2, ho2⟩
        · have hd2 := activeLeader_phaseCid ha2
          simp [phaseCid] at hd2
          have := hinv.active_lt t1 p1 k1 d1 ho1 ha1
          omega
        · exact hinv.active_inj t1 t2 p1 p2 k1 k2 d1 d2 hne ho1 ho2 ha1 ha2
    · have := hinv.flight_len
      simp
      omega
  | follow h1 h2 h3 =>
    rename_i tid' key fmod fname gen out k cid'
    constructor
    · exact hinv.keys_nodup
    · exact hinv.reg_lt
    · intro tid ph k0 cid hph hal
      rcases getElem?_set_cases hph with ⟨_, rfl, _⟩ | ⟨_, hold⟩
      · exact absurd hal activeLeader_not_waiting
      · exact hinv.active_lt tid ph k0 cid hold hal
    · intro tid ph k0 cid hph hal
      rcases getElem?_set_cases hph with ⟨_, rfl, _⟩ | ⟨_, hold⟩
      · exact absurd hal activeLeader_not_waiting
      · exact hinv.active_reg tid ph k0 cid hold hal
    · intro t1 t2 p1 p2 k1 k2 d1 d2 hne hp1 hp2 ha1 ha2
      rcases getElem?_set_cases hp1 with ⟨_, rfl, _⟩ | ⟨_, ho1⟩
      · exact absurd ha1 activeLeader_not_waiting
      · rcases getElem?_set_cases hp2 with ⟨_, rfl, _⟩ | ⟨_, ho2⟩
        · exact absurd ha2 activeLeader_not_waiting
        · exact hinv.active_inj t1 t2 p1 p2 k1 k2 d1 d2 hne ho1 ho2 ha1 ha2
    · exact hinv.flight_len
  | work h1 =>
    rename_i tid' k cid' out
    constructor
    · exact hinv.keys_nodup
    · intro k0 cid0 hmem
      have := hinv.reg_lt k0 cid0 hmem
      simpa [modifyCall_length] using this
    · intro tid ph k0 cid hph hal
      rcases getElem?_set_cases hph with ⟨_, rfl, _⟩ | ⟨_, hold⟩
      · rcases hal with heq | ⟨o, heq⟩
        · injection heq with e1 e2
          subst e1
          subst e2
          have := hinv.active_lt tid' _ _ _ h1 (Or.inr ⟨out, rfl⟩)
          simpa [modifyCall_length] using this
        · exact Phase.noConfusion heq
      · have := hinv.active_lt tid ph k0 cid hold hal
        simpa [modifyCall_length] using this
    · intro tid ph k0 cid hph hal
      rcases getElem?_set_cases hph with ⟨_, rfl, _⟩ | ⟨_, hold⟩
      · rcases hal with heq | ⟨o, heq⟩
        · injection heq with e1 e2
          subst e1
          subst e2
          exact hinv.active_reg tid' _ _ _ h1 (Or.inr ⟨out, rfl⟩)
        · exact Phase.noConfusion heq
      · exact hinv.active_reg tid ph k0 cid hold hal
    · intro t1 t2 p1 p2 k1 k2 d1 d2 hne hp1 hp2 ha1 ha2
      have main : ∀ (t : Nat) (p : Phase) (k0 : String) (d : Nat),
          (c.threads.set tid' (Phase.finishing k cid'))[t]? = some p →
          activeLeader p k0 d →
          ∃ q, c.threads[t]? = some q ∧ activeLeader q k0 d := by
        intro t p k0 d hp hal
        rcases getElem?_set_cases hp with ⟨he, rfl, _⟩ | ⟨_, hold⟩
        · rcases hal with heq | ⟨o, heq⟩
          · injection heq with e1 e2
            subst e1
            subst e2
            subst he
            exact ⟨_, h1, Or.inr ⟨out, rfl⟩⟩
          · exact Phase.noConfusion heq
        · exact ⟨p, hold, hal⟩
      obtain ⟨q1, hq1, hb1⟩ := main t1 p1 k1 d1 hp1 ha1
      obtain ⟨q2, hq2, hb2⟩ := main t2 p2 k2 d2 hp2 ha2
      exact hinv.active_inj t1 t2 q1 q2 k1 k2 d1 d2 hne hq1 hq2 hb1 hb2
    · exact hinv.flight_len
  | cleanup h1 =>
    rename_i tid' k cid'
    have hreg : rlookup c.shared.in_flight k = some cid' :=
      hinv.active_reg tid' _ k cid' h1 (Or.inl rfl)
    have hlen : (rerase c.shared.in_flight k).length + 1 = c.shared.in_flight.length :=
      length_rerase_of_mem hinv.keys_nodup hreg
    constructor
    · exact hinv.keys_nodup.sublist (rkeys_rerase_sublist _ _)
    · intro k0 cid0 hmem
      exact hinv.reg_lt k0 cid0 (mem_rerase hmem).1
    · intro tid ph k0 cid hph hal
      rcases getElem?_set_cases hph with ⟨_, rfl, _⟩ | ⟨_, hold⟩
      · exact absurd hal activeLeader_not_signaling
      · exact hinv.active_lt tid ph k0 cid hold hal
    · intro tid ph k0 cid hph hal
      rcases getElem?_set_cases hph with ⟨_, rfl, _⟩ | ⟨hne, hold⟩
      · exact absurd hal activeLeader_not_signaling
      · have hregold := hinv.active_reg tid ph k0 cid hold hal
        have hk0 : k0 ≠ k := by
          intro hk
          subst hk
          rw [hreg] at hregold
          have hcid : cid = cid' := (Option.some.inj hregold).symm
          exact hinv.active_inj tid tid' ph _ k0 k0 cid cid' hne hold h1 hal
            (Or.inl rfl) hcid
        rw [rlookup_rerase_ne hk0]
        exact hregold
    · intro t1 t2 p1 p2 k1 k2 d1 d2 hne hp1 hp2 ha1 ha2
      have main : ∀ (t : Nat) (p : Phase) (k0 : String) (d : Nat),
          (c.threads.set tid' (Phase.signaling cid'))[t]? = some p →
          activeLeader p k0 d →
          ∃ q, c.threads[t]? = some q ∧ activeLeader q k0 d := by
        intro t p k0 d hp hal
        rcases getElem?_set_cases hp with ⟨he, rfl, _⟩ | ⟨_, hold⟩
        · exact absurd hal activeLeader_not_signaling
        · exact ⟨p, hold, hal⟩
      obtain ⟨q1, hq1, hb1⟩ := main t1 p1 k1 d1 hp1 ha1
      obtain ⟨q2, hq2, hb2⟩ := main t2 p2 k2 d2 hp2 ha2
      exact hinv.active_inj t1 t2 q1 q2 k1 k2 d1 d2 hne hq1 hq2 hb1 hb2
    · have := hinv.flight_len
      simp only [SharedCall.forget]
      rw [this]
      omega
  | setEvent h1 =>
    rename_i tid' cid'
    constructor
    · exact hinv.keys_nodup
    · intro k0 cid0 hmem
      have := hinv.reg_lt k0 cid0 hmem
      simpa [modifyCall_length] using this
    · intro tid ph k0 cid hph hal
      rcases getElem?_set_cases hph with ⟨_, rfl, _⟩ | ⟨_, hold⟩
      · exact absurd hal activeLeader_not_waiting
      · have := hinv.active_lt tid ph k0 cid hold hal
        simpa [modifyCall_length] using this
    · intro tid ph k0 cid hph hal
      rcases getElem?_set_cases hph with ⟨_, rfl, _⟩ | ⟨_, hold⟩
      · exact absurd hal activeLeader_not_waiting
      · exact hinv.active_reg tid ph k0 cid hold hal
    · intro t1 t2 p1 p2 k1 k2 d1 d2 hne hp1 hp2 ha1 ha2
      rcases getElem?_set_cases hp1 with ⟨_, rfl, _⟩ | ⟨_, ho1⟩
      · exact absurd ha1 activeLeader_not_waiting
      · rcases getElem?_set_cases hp2 with ⟨_, rfl, _⟩ | ⟨_, ho2⟩
        · exact absurd ha2 activeLeader_not_waiting
        · exact hinv.active_inj t1 t2 p1 p2 k1 k2 d1 d2 hne ho1 ho2 ha1 ha2
    · exact hinv.flight_len
  | ret h1 h2 h3 =>
    rename_i tid' cid' pc
    constructor
    · exact hinv.keys_nodup
    · exact hinv.reg_lt
    · intro tid ph k0 cid hph hal
      rcases getElem?_set_cases hph with ⟨_, rfl, _⟩ | ⟨_, hold⟩
      · exact absurd hal activeLeader_not_done
      · exact hinv.active_lt tid ph k0 cid hold hal
    · intro tid ph k0 cid hph hal
      rcases getElem?_set_cases hph with ⟨_, rfl, _⟩ | ⟨_, hold⟩
      · exact absurd hal activeLeader_not_done
      · exact hinv.active_reg tid ph k0 cid hold hal
    · intro t1 t2 p1 p2 k1 k2 d1 d2 hne hp1 hp2 ha1 ha2
      rcases getElem?_set_cases hp1 with ⟨_, rfl, _⟩ | ⟨_, ho1⟩
      · exact absurd ha1 activeLeader_not_done
      · rcases getElem?_set_cases hp2 with ⟨_, rfl, _⟩ | ⟨_, ho2⟩
        · exact absurd ha2 activeLeader_not_done
        · exact hinv.active_inj t1 t2 p1 p2 k1 k2 d1 d2 hne ho1 ho2 ha1 ha2
    · exact hinv.flight_len
  | forget => simp [isCall] at hcall
  | forgetAll => simp [isCall] at hcall
  | resetStats => simp [isCall] at hcall

theorem callInv_steps {c c' : Config} {tr : List Label}
    (hsteps : Steps c tr c') (hall : ∀ l ∈ tr, isCall l = true)
    (hinv : CallInv c) : CallInv c' := by
  induction hsteps with
  | refl => exact hinv
  | cons hstep _ ih =>
    exact ih (fun l' hm => hall l' (List.mem_cons_of_mem _ hm))
      (callInv_step hstep (hall _ (List.mem_cons_self _ _)) hinv)

/-! ### The coalescing scenario

Spec §8: `N ≥ 1` concurrent calls sharing one key on a fresh coordinator,
overlapping in time.  A trace is "overlapping" when every registration
happens before the leader's registry cleanup: we split it as `tr1 ++ tr2`
with no `cleanup` step in `tr1` and no registration step in `tr2`, and no
maintenance steps anywhere. -/

/-- Labels admissible before the leader's cleanup: `call` steps that are
not a registry cleanup. -/
def allowedA (l : Label) : Bool := isCall l && !(isCleanupL l)

/-- Labels admissible after all registrations: `call` steps that are not a
registration. -/
def allowedB (l : Label) : Bool := isCall l && !(isReg l)

/-- The scenario's parameters: `N` threads whose `call` arguments all
resolve to the same key `k` (explicitly, or automatically from equal
function identity and argument fingerprints). -/
structure Scenario where
  N : Nat
  k : String
  kf : Nat → Option String
  fm : Nat → String
  fq : Nat → String
  g : Nat → KeyGen
  outf : Nat → Outcome
  resolves : ∀ i : Nat, resolvedKey (kf i) (fm i) (fq i) (g i) = .ok k

/-- Thread `i`'s phase before it enters `call`. -/
def Scenario.startPh (S : Scenario) (i : Nat) : Phase :=
  .start (S.kf i) (S.fm i) (S.fq i) (S.g i) (S.outf i)

/-- The scenario's initial configuration: every thread about to invoke
`call` on a fresh coordinator. -/
def Scenario.initConfig (S : Scenario) : Config :=
  ⟨(List.range S.N).map S.startPh, SharedCall.init⟩

theorem getElem?_range_map {α : Type} {f : Nat → α} {n t : Nat} {x : α}
    (h : ((List.range n).map f)[t]? = some x) : t < n ∧ x = f t := by
  have hlt : t < n := by simpa using getElem?_some_lt h
  rw [List.getElem?_map, List.getElem?_range hlt] at h
  exact ⟨hlt, (Option.some.inj h).symm⟩

theorem Scenario.initConfig_threads (S : Scenario) {t : Nat} (h : t < S.N) :
    S.initConfig.threads[t]? = some (S.startPh t) := by
  simp [Scenario.initConfig, List.getElem?_map, List.getElem?_range h]

theorem Scenario.initConfig_len (S : Scenario) :
    S.initConfig.threads.length = S.N := by
  simp [Scenario.initConfig]

theorem Scenario.initConfig_all_start (S : Scenario) :
    ∀ ph ∈ S.initConfig.threads, isStart ph = true := by
  intro ph hm
  simp [Scenario.initConfig] at hm
  obtain ⟨i, _, rfl⟩ := hm
  rfl

/-- Census of the scenario before the leader's cleanup: either nobody has
entered the locked region yet, or one leader (`run`: work not yet executed,
`fin`: work executed) holds record 0 and every other thread is still at
`start` or waits on record 0.  The two `Nat` indices are the number of
work-function executions and of leader registrations in the trace so far. -/
inductive CensusA (S : Scenario) : Config → Nat → Nat → Prop
  | idle : CensusA S S.initConfig 0 0
  | run (L : Nat) (ts : List Phase) (H : Nat)
      (hL : L < S.N) (hlen : ts.length = S.N)
      (hLph : ts[L]? = some (.running S.k 0 (S.outf L)))
      (hoth : ∀ t : Nat, t < S.N → t ≠ L →
        ts[t]? = some (S.startPh t) ∨ ts[t]? = some (.waiting 0))
      (hH : H + countStart ts + 1 = S.N) :
      CensusA S ⟨ts, ⟨[(S.k, 0)], [⟨.unset, false⟩], ⟨H, 1, 0, 1⟩⟩⟩ 0 1
  | fin (L : Nat) (ts : List Phase) (H : Nat)
      (hL : L < S.N) (hlen : ts.length = S.N)
      (hLph : ts[L]? = some (.finishing S.k 0))
      (hoth : ∀ t : Nat, t < S.N → t ≠ L →
        ts[t]? = some (S.startPh t) ∨ ts[t]? = some (.waiting 0))
      (hH : H + countStart ts + 1 = S.N) :
      CensusA S ⟨ts, ⟨[(S.k, 0)], [⟨outcomeRes (S.outf L), false⟩],
        ⟨H, 1, errInc (S.outf L), 1⟩⟩⟩ 1 1

/-- Locate a thread relative to the census: it is the leader or one of the
others, which are at `start` or waiting on record 0. -/
theorem census_thread_cases {S : Scenario} {ts : List Phase} {L tid : Nat} {ph : Phase}
    (hlen : ts.length = S.N)
    (hoth : ∀ t : Nat, t < S.N → t ≠ L →
      ts[t]? = some (S.startPh t) ∨ ts[t]? = some (.waiting 0))
    (h1 : ts[tid]? = some ph) :
    tid = L ∨ (tid ≠ L ∧ tid < S.N ∧ (ph = S.startPh tid ∨ ph = .waiting 0)) := by
  by_cases he : tid = L
  · exact Or.inl he
  · have htid : tid < S.N := hlen ▸ getElem?_some_lt h1
    rcases hoth tid htid he with h | h
    · exact Or.inr ⟨he, htid, Or.inl (Option.some.inj (h1.symm.trans h))⟩
    · exact Or.inr ⟨he, htid, Or.inr (Option.some.inj (h1.symm.trans h))⟩

theorem censusA_step {S : Scenario} {c c' : Config} {l : Label} {nw nl : Nat}
    (hstep : Step c l c') (hA : allowedA l = true) (hcensus : CensusA S c nw nl) :
    CensusA S c' (nw + workInd l) (nl + leadInd l) := by
  cases hcensus with
  | idle =>
    cases hstep with
    | keyError h1 h2 =>
      rename_i tid key fmod fname gen out e
      obtain ⟨htid, heq⟩ := getElem?_range_map (by simpa [Scenario.initConfig] using h1)
      simp only [Scenario.startPh] at heq
      injection heq with e1 e2 e3 e4 e5
      subst e1; subst e2; subst e3; subst e4; subst e5
      rw [S.resolves tid] at h2
      exact KeyGen.noConfusion h2
    | lead h1 h2 h3 =>
      rename_i tid key fmod fname gen out k0
      obtain ⟨htid, heq⟩ := getElem?_range_map (by simpa [Scenario.initConfig] using h1)
      simp only [Scenario.startPh] at heq
      injection heq with e1 e2 e3 e4 e5
      subst e1; subst e2; subst e3; subst e4; subst e5
      have hk : k0 = S.k := by
        have := h2.symm.trans (S.resolves tid)
        exact KeyGen.ok.inj this
      subst hk
      have hcs : countStart S.initConfig.threads = S.N := by
        rw [countStart_eq_length S.initConfig_all_start, S.initConfig_len]
      have hset := countStart_set_leave (b := Phase.running S.k 0 (S.outf tid))
        (S.initConfig_threads htid) rfl rfl
      refine CensusA.run tid (S.initConfig.threads.set tid (.running S.k 0 (S.outf tid))) 0
        htid (by rw [List.length_set, S.initConfig_len]) ?_ ?_ ?_
      · exact List.getElem?_set_self (by rw [S.initConfig_len]; exact htid)
      · intro t ht hne
        rw [List.getElem?_set_ne (fun hx => hne hx.symm)]
        exact Or.inl (S.initConfig_threads ht)
      · omega
    | follow h1 h2 h3 =>
      rename_i tid key fmod fname gen out k0 cid
      simp [Scenario.initConfig, SharedCall.init, rlookup] at h3
    | work h1 =>
      obtain ⟨htid, heq⟩ := getElem?_range_map (by simpa [Scenario.initConfig] using h1)
      simp [Scenario.startPh] at heq
    | cleanup h1 => simp [allowedA, isCall, isCleanupL] at hA
    | setEvent h1 =>
      obtain ⟨htid, heq⟩ := getElem?_range_map (by simpa [Scenario.initConfig] using h1)
      simp [Scenario.startPh] at heq
    | ret h1 h2 h3 =>
      obtain ⟨htid, heq⟩ := getElem?_range_map (by simpa [Scenario.initConfig] using h1)
      simp [Scenario.startPh] at heq
    | forget => simp [allowedA, isCall] at hA
    | forgetAll => simp [allowedA, isCall] at hA
    | resetStats => simp [allowedA, isCall] at hA
  | run L ts H hL hlen hLph hoth hH =>
    cases hstep with
    | keyError h1 h2 =>
      rename_i tid key fmod fname gen out e
      rcases census_thread_cases hlen hoth h1 with rfl | ⟨hne, htid, hph | hph⟩
      · exact Phase.noConfusion (Option.some.inj (hLph.symm.trans h1))
      · simp only [Scenario.startPh] at hph
        injection hph with e1 e2 e3 e4 e5
        subst e1; subst e2; subst e3; subst e4; subst e5
        rw [S.resolves tid] at h2
        exact KeyGen.noConfusion h2
      · exact Phase.noConfusion hph
    | lead h1 h2 h3 =>
      rename_i tid key fmod fname gen out k0
      rcases census_thread_cases hlen hoth h1 with rfl | ⟨hne, htid, hph | hph⟩
      · exact Phase.noConfusion (Option.some.inj (hLph.symm.trans h1))
      · simp only [Scenario.startPh] at hph
        injection hph with e1 e2 e3 e4 e5
        subst e1; subst e2; subst e3; subst e4; subst e5
        have hk : k0 = S.k := KeyGen.ok.inj (h2.symm.trans (S.resolves tid))
        subst hk
        simp [rlookup] at h3
      · exact Phase.noConfusion hph
    | follow h1 h2 h3 =>
      rename_i tid key fmod fname gen out k0 cid
      rcases census_thread_cases hlen hoth h1 with rfl | ⟨hne, htid, hph | hph⟩
      · exact Phase.noConfusion (Option.some.inj (hLph.symm.trans h1))
      · simp only [Scenario.startPh] at hph
        injection hph with e1 e2 e3 e4 e5
        subst e1; subst e2; subst e3; subst e4; subst e5
        have hk : k0 = S.k := KeyGen.ok.inj (h2.symm.trans (S.resolves tid))
        subst hk
        have hcid : cid = 0 := by simpa [rlookup] using h3.symm
        subst hcid
        have hset := countStart_set_leave (b := Phase.waiting 0) h1 rfl rfl
        have hset2 : countStart (ts.set tid (Phase.waiting 0)) + 1 = countStart ts := hset
        refine CensusA.run L (ts.set tid (.waiting 0)) (H + 1) hL
          (by rw [List.length_set]; exact hlen) ?_ ?_ ?_
        · rw [List.getElem?_set_ne hne]
          exact hLph
        · intro t ht htL
          by_cases hte : t = tid
          · subst hte
            exact Or.inr (List.getElem?_set_self (hlen ▸ htid))
          · rw [List.getElem?_set_ne (fun hx => hte hx.symm)]
            exact hoth t ht htL
        · omega
      · exact Phase.noConfusion hph
    | work h1 =>
      rename_i tid k0 cid0 out0
      rcases census_thread_cases hlen hoth h1 with rfl | ⟨hne, htid, hph | hph⟩
      · have heq := Option.some.inj (hLph.symm.trans h1)
        injection heq with e1 e2 e3
        subst e1; subst e2; subst e3
        have hset := countStart_set_same (b := Phase.finishing S.k 0) h1 rfl
        have hset2 : countStart (ts.set tid (Phase.finishing S.k 0)) = countStart ts := hset
        rw [Nat.zero_add]
        refine CensusA.fin tid (ts.set tid (.finishing S.k 0)) H hL
          (by rw [List.length_set]; exact hlen) ?_ ?_ ?_
        · exact List.getElem?_set_self (hlen ▸ hL)
        · intro t ht htL
          rw [List.getElem?_set_ne (fun hx => htL hx.symm)]
          exact hoth t ht htL
        · omega
      · simp [Scenario.startPh] at hph
      · exact Phase.noConfusion hph
    | cleanup h1 => simp [allowedA, isCall, isCleanupL] at hA
    | setEvent h1 =>
      rename_i tid cid0
      rcases census_thread_cases hlen hoth h1 with rfl | ⟨hne, htid, hph | hph⟩
      · exact Phase.noConfusion (Option.some.inj (hLph.symm.trans h1))
      · simp [Scenario.startPh] at hph
      · exact Phase.noConfusion hph
    | ret h1 h2 h3 =>
      rename_i tid cid0 pc
      rcases census_thread_cases hlen hoth h1 with rfl | ⟨hne, htid, hph | hph⟩
      · exact Phase.noConfusion (Option.some.inj (hLph.symm.trans h1))
      · simp [Scenario.startPh] at hph
      · injection hph with e1
        subst e1
        have hpc : pc = ⟨.unset, false⟩ := by simpa using h2.symm
        subst hpc
        exact Bool.noConfusion h3
    | forget => simp [allowedA, isCall] at hA
    | forgetAll => simp [allowedA, isCall] at hA
    | resetStats => simp [allowedA, isCall] at hA
  | fin L ts H hL hlen hLph hoth hH =>
    cases hstep with
    | keyError h1 h2 =>
      rename_i tid key fmod fname gen out e
      rcases census_thread_cases hlen hoth h1 with rfl | ⟨hne, htid, hph | hph⟩
      · exact Phase.noConfusion (Option.some.inj (hLph.symm.trans h1))
      · simp only [Scenario.startPh] at hph
        injection hph with e1 e2 e3 e4 e5
        subst e1; subst e2; subst e3; subst e4; subst e5
        rw [S.resolves tid] at h2
        exact KeyGen.noConfusion h2
      · exact Phase.noConfusion hph
    | lead h1 h2 h3 =>
      rename_i tid key fmod fname gen out k0
      rcases census_thread_cases hlen hoth h1 with rfl | ⟨hne, htid, hph | hph⟩
      · exact Phase.noConfusion (Option.some.inj (hLph.symm.trans h1))
      · simp only [Scenario.startPh] at hph
        injection hph with e1 e2 e3 e4 e5
        subst e1; subst e2; subst e3; subst e4; subst e5
        have hk : k0 = S.k := KeyGen.ok.inj (h2.symm.trans (S.resolves tid))
        subst hk
        simp [rlookup] at h3
      · exact Phase.noConfusion hph
    | follow h1 h2 h3 =>
      rename_i tid key fmod fname gen out k0 cid
      rcases census_thread_cases hlen hoth h1 with rfl | ⟨hne, htid, hph | hph⟩
      · exact Phase.noConfusion (Option.some.inj (hLph.symm.trans h1))
      · simp only [Scenario.startPh] at hph
        injection hph with e1 e2 e3 e4 e5
        subst e1; subst e2; subst e3; subst e4; subst e5
        have hk : k0 = S.k := KeyGen.ok.inj (h2.symm.trans (S.resolves tid))
        subst hk
        have hcid : cid = 0 := by simpa [rlookup] using h3.symm
        subst hcid
        have hset := countStart_set_leave (b := Phase.waiting 0) h1 rfl rfl
        have hset2 : countStart (ts.set tid (Phase.waiting 0)) + 1 = countStart ts := hset
        refine CensusA.fin L (ts.set tid (.waiting 0)) (H + 1) hL
          (by rw [List.length_set]; exact hlen) ?_ ?_ ?_
        · rw [List.getElem?_set_ne hne]
          exact hLph
        · intro t ht htL
          by_cases hte : t = tid
          · subst hte
            exact Or.inr (List.getElem?_set_self (hlen ▸ htid))
          · rw [List.getElem?_set_ne (fun hx => hte hx.symm)]
            exact hoth t ht htL
        · omega
      · exact Phase.noConfusion hph
    | work h1 =>
      rename_i tid k0 cid0 out0
      rcases census_thread_cases hlen hoth h1 with rfl | ⟨hne, htid, hph | hph⟩
      · exact Phase.noConfusion (Option.some.inj (hLph.symm.trans h1))
      · simp [Scenario.startPh] at hph
      · exact Phase.noConfusion hph
    | cleanup h1 => simp [allowedA, isCall, isCleanupL] at hA
    | setEvent h1 =>
      rename_i tid cid0
      rcases census_thread_cases hlen hoth h1 with rfl | ⟨hne, htid, hph | hph⟩
      · exact Phase.noConfusion (Option.some.inj (hLph.symm.trans h1))
      · simp [Scenario.startPh] at hph
      · exact Phase.noConfusion hph
    | ret h1 h2 h3 =>
      rename_i tid cid0 pc
      rcases census_thread_cases hlen hoth h1 with rfl | ⟨hne, htid, hph | hph⟩
      · exact Phase.noConfusion (Option.some.inj (hLph.symm.trans h1))
      · simp [Scenario.startPh] at hph
      · injection hph with e1
        subst e1
        have hpc : pc = ⟨outcomeRes (S.outf L), false⟩ := by simpa using h2.symm
        subst hpc
        exact Bool.noConfusion h3
    | forget => simp [allowedA, isCall] at hA
    | forgetAll => simp [allowedA, isCall] at hA
    | resetStats => simp [allowedA, isCall] at hA

/-- Census of the scenario once every thread has registered: the leader
walks through work execution (`run` → `fin`), registry cleanup (`sig`),
and the event broadcast, after which (`post`) every thread is either still
waiting or has returned the leader's outcome.  The `Nat` index counts
work-function executions relative to the start of the whole trace. -/
inductive CensusB (S : Scenario) : Config → Nat → Prop
  | run (L : Nat) (ts : List Phase)
      (hL : L < S.N) (hlen : ts.length = S.N)
      (hLph : ts[L]? = some (.running S.k 0 (S.outf L)))
      (hoth : ∀ t : Nat, t < S.N → t ≠ L → ts[t]? = some (.waiting 0)) :
      CensusB S ⟨ts, ⟨[(S.k, 0)], [⟨.unset, false⟩], ⟨S.N - 1, 1, 0, 1⟩⟩⟩ 0
  | fin (L : Nat) (ts : List Phase)
      (hL : L < S.N) (hlen : ts.length = S.N)
      (hLph : ts[L]? = some (.finishing S.k 0))
      (hoth : ∀ t : Nat, t < S.N → t ≠ L → ts[t]? = some (.waiting 0)) :
      CensusB S ⟨ts, ⟨[(S.k, 0)], [⟨outcomeRes (S.outf L), false⟩],
        ⟨S.N - 1, 1, errInc (S.outf L), 1⟩⟩⟩ 1
  | sig (L : Nat) (ts : List Phase)
      (hL : L < S.N) (hlen : ts.length = S.N)
      (hLph : ts[L]? = some (.signaling 0))
      (hoth : ∀ t : Nat, t < S.N → t ≠ L → ts[t]? = some (.waiting 0)) :
      CensusB S ⟨ts, ⟨[], [⟨outcomeRes (S.outf L), false⟩],
        ⟨S.N - 1, 1, errInc (S.outf L), 0⟩⟩⟩ 1
  | post (L : Nat) (ts : List Phase)
      (hL : L < S.N) (hlen : ts.length = S.N)
      (hall : ∀ t : Nat, t < S.N → ts[t]? = some (.waiting 0) ∨
        ts[t]? = some (.done (.ret (some (S.outf L))))) :
      CensusB S ⟨ts, ⟨[], [⟨outcomeRes (S.outf L), true⟩],
        ⟨S.N - 1, 1, errInc (S.outf L), 0⟩⟩⟩ 1

theorem unwrapO_outcomeRes (o : Outcome) : (outcomeRes o).unwrapO = some o := by
  cases o <;> rfl

theorem censusB_step {S : Scenario} {c c' : Config} {l : Label} {nw : Nat}
    (hstep : Step c l c') (hB : allowedB l = true) (hcensus : CensusB S c nw) :
    CensusB S c' (nw + workInd l) ∧ leadInd l = 0 := by
  have hlead : leadInd l = 0 := by
    cases l <;> simp [allowedB, isCall, isReg, leadInd] at hB ⊢
  refine ⟨?_, hlead⟩
  cases hcensus with
  | run L ts hL hlen hLph hoth =>
    cases hstep with
    | keyError h1 h2 => simp [allowedB, isReg] at hB
    | lead h1 h2 h3 => simp [allowedB, isReg] at hB
    | follow h1 h2 h3 => simp [allowedB, isReg] at hB
    | work h1 =>
      rename_i tid k0 cid0 out0
      by_cases he : tid = L
      · subst he
        have heq := Option.some.inj (hLph.symm.trans h1)
        injection heq with e1 e2 e3
        subst e1; subst e2; subst e3
        rw [Nat.zero_add]
        refine CensusB.fin tid (ts.set tid (.finishing S.k 0)) hL
          (by rw [List.length_set]; exact hlen) ?_ ?_
        · exact List.getElem?_set_self (hlen ▸ hL)
        · intro t ht htL
          rw [List.getElem?_set_ne (fun hx => htL hx.symm)]
          exact hoth t ht htL
      · have htid : tid < S.N := hlen ▸ getElem?_some_lt h1
        have := Option.some.inj ((hoth tid htid he).symm.trans h1)
        exact Phase.noConfusion this
    | cleanup h1 =>
      rename_i tid k0 cid0
      by_cases he : tid = L
      · subst he
        exact Phase.noConfusion (Option.some.inj (hLph.symm.trans h1))
      · have htid : tid < S.N := hlen ▸ getElem?_some_lt h1
        exact Phase.noConfusion (Option.some.inj ((hoth tid htid he).symm.trans h1))
    | setEvent h1 =>
      rename_i tid cid0
      by_cases he : tid = L
      · subst he
        exact Phase.noConfusion (Option.some.inj (hLph.symm.trans h1))
      · have htid : tid < S.N := hlen ▸ getElem?_some_lt h1
        exact Phase.noConfusion (Option.some.inj ((hoth tid htid he).symm.trans h1))
    | ret h1 h2 h3 =>
      rename_i tid cid0 pc
      by_cases he : tid = L
      · subst he
        exact absurd (Option.some.inj (hLph.symm.trans h1)) (fun h => Phase.noConfusion h)
      · have htid : tid < S.N := hlen ▸ getElem?_some_lt h1
        have heq := Option.some.inj ((hoth tid htid he).symm.trans h1)
        injection heq with e1
        subst e1
        have hpc : pc = ⟨.unset, false⟩ := by simpa using h2.symm
        subst hpc
        exact Bool.noConfusion h3
    | forget => simp [allowedB, isCall] at hB
    | forgetAll => simp [allowedB, isCall] at hB
    | resetStats => simp [allowedB, isCall] at hB
  | fin L ts hL hlen hLph hoth =>
    cases hstep with
    | keyError h1 h2 => simp [allowedB, isReg] at hB
    | lead h1 h2 h3 => simp [allowedB, isReg] at hB
    | follow h1 h2 h3 => simp [allowedB, isReg] at hB
    | work h1 =>
      rename_i tid k0 cid0 out0
      by_cases he : tid = L
      · subst he
        exact Phase.noConfusion (Option.some.inj (hLph.symm.trans h1))
      · have htid : tid < S.N := hlen ▸ getElem?_some_lt h1
        exact Phase.noConfusion (Option.some.inj ((hoth tid htid he).symm.trans h1))
    | cleanup h1 =>
      rename_i tid k0 cid0
      by_cases he : tid = L
      · subst he
        have heq := Option.some.inj (hLph.symm.trans h1)
        injection heq with e1 e2
        subst e1; subst e2
        have her : rerase [(S.k, 0)] S.k = ([] : List (String × Nat)) := by
          simp [rerase]
        have hst : (1 : Int) - 1 = 0 := by norm_num
        rw [her, hst]
        refine CensusB.sig tid (ts.set tid (.signaling 0)) hL
          (by rw [List.length_set]; exact hlen) ?_ ?_
        · exact List.getElem?_set_self (hlen ▸ hL)
        · intro t ht htL
          rw [List.getElem?_set_ne (fun hx => htL hx.symm)]
          exact hoth t ht htL
      · have htid : tid < S.N := hlen ▸ getElem?_some_lt h1
        exact Phase.noConfusion (Option.some.inj ((hoth tid htid he).symm.trans h1))
    | setEvent h1 =>
      rename_i tid cid0
      by_cases he : tid = L
      · subst he
        exact Phase.noConfusion (Option.some.inj (hLph.symm.trans h1))
      · have htid : tid < S.N := hlen ▸ getElem?_some_lt h1
        exact Phase.noConfusion (Option.some.inj ((hoth tid htid he).symm.trans h1))
    | ret h1 h2 h3 =>
      rename_i tid cid0 pc
      by_cases he : tid = L
      · subst he
        exact absurd (Option.some.inj (hLph.symm.trans h1)) (fun h => Phase.noConfusion h)
      · have htid : tid < S.N := hlen ▸ getElem?_some_lt h1
        have heq := Option.some.inj ((hoth tid htid he).symm.trans h1)
        injection heq with e1
        subst e1
        have hpc : pc = ⟨outcomeRes (S.outf L), false⟩ := by simpa using h2.symm
        subst hpc
        exact Bool.noConfusion h3
    | forget => simp [allowedB, isCall] at hB
    | forgetAll => simp [allowedB, isCall] at hB
    | resetStats => simp [allowedB, isCall] at hB
  | sig L ts hL hlen hLph hoth =>
    cases hstep with
    | keyError h1 h2 => simp [allowedB, isReg] at hB
    | lead h1 h2 h3 => simp [allowedB, isReg] at hB
    | follow h1 h2 h3 => simp [allowedB, isReg] at hB
    | work h1 =>
      rename_i tid k0 cid0 out0
      by_cases he : tid = L
      · subst he
        exact Phase.noConfusion (Option.some.inj (hLph.symm.trans h1))
      · have htid : tid < S.N := hlen ▸ getElem?_some_lt h1
        exact Phase.noConfusion (Option.some.inj ((hoth tid htid he).symm.trans h1))
    | cleanup h1 =>
      rename_i tid k0 cid0
      by_cases he : tid = L
      · subst he
        exact Phase.noConfusion (Option.some.inj (hLph.symm.trans h1))
      · have htid : tid < S.N := hlen ▸ getElem?_some_lt h1
        exact Phase.noConfusion (Option.some.inj ((hoth tid htid he).symm.trans h1))
    | setEvent h1 =>
      rename_i tid cid0
      by_cases he : tid = L
      · subst he
        have heq := Option.some.inj (hLph.symm.trans h1)
        injection heq with e1
        subst e1
        refine CensusB.post tid (ts.set tid (.waiting 0)) hL
          (by rw [List.length_set]; exact hlen) ?_
        intro t ht
        by_cases hte : t = tid
        · subst hte
          exact Or.inl (List.getElem?_set_self (hlen ▸ hL))
        · rw [List.getElem?_set_ne (fun hx => hte hx.symm)]
          exact Or.inl (hoth t ht hte)
      · have htid : tid < S.N := hlen ▸ getElem?_some_lt h1
        exact Phase.noConfusion (Option.some.inj ((hoth tid htid he).symm.trans h1))
    | ret h1 h2 h3 =>
      rename_i tid cid0 pc
      by_cases he : tid = L
      · subst he
        exact absurd (Option.some.inj (hLph.symm.trans h1)) (fun h => Phase.noConfusion h)
      · have htid : tid < S.N := hlen ▸ getElem?_some_lt h1
        have heq := Option.some.inj ((hoth tid htid he).symm.trans h1)
        injection heq with e1
        subst e1
        have hpc : pc = ⟨outcomeRes (S.outf L), false⟩ := by simpa using h2.symm
        subst hpc
        exact Bool.noConfusion h3
    | forget => simp [allowedB, isCall] at hB
    | forgetAll => simp [allowedB, isCall] at hB
    | resetStats => simp [allowedB, isCall] at hB
  | post L ts hL hlen hall =>
    cases hstep with
    | keyError h1 h2 => simp [allowedB, isReg] at hB
    | lead h1 h2 h3 => simp [allowedB, isReg] at hB
    | follow h1 h2 h3 => simp [allowedB, isReg] at hB
    | work h1 =>
      rename_i tid k0 cid0 out0
      have htid : tid < S.N := hlen ▸ getElem?_some_lt h1
      rcases hall tid htid with h | h <;>
        exact Phase.noConfusion (Option.some.inj (h.symm.trans h1))
    | cleanup h1 =>
      rename_i tid k0 cid0
      have htid : tid < S.N := hlen ▸ getElem?_some_lt h1
      rcases hall tid htid with h | h <;>
        exact Phase.noConfusion (Option.some.inj (h.symm.trans h1))
    | setEvent h1 =>
      rename_i tid cid0
      have htid : tid < S.N := hlen ▸ getElem?_some_lt h1
      rcases hall tid htid with h | h <;>
        exact Phase.noConfusion (Option.some.inj (h.symm.trans h1))
    | ret h1 h2 h3 =>
      rename_i tid cid0 pc
      have htid : tid < S.N := hlen ▸ getElem?_some_lt h1
      have hw : cid0 = 0 := by
        rcases hall tid htid with h | h
        · have := Option.some.inj (h.symm.trans h1)
          injection this with e1
          exact e1.symm
        · exact absurd (Option.some.inj (h.symm.trans h1)) (fun hx => Phase.noConfusion hx)
      subst hw
      have hpc : pc = ⟨outcomeRes (S.outf L), true⟩ := by simpa using h2.symm
      subst hpc
      have hret : (SyncCall.mk (outcomeRes (S.outf L)) true).result.unwrapO
          = some (S.outf L) := unwrapO_outcomeRes _
      rw [hret]
      refine CensusB.post L (ts.set tid (.done (.ret (some (S.outf L))))) hL
        (by rw [List.length_set]; exact hlen) ?_
      intro t ht
      by_cases hte : t = tid
      · subst hte
        exact Or.inr (List.getElem?_set_self (hlen ▸ htid))
      · rw [List.getElem?_set_ne (fun hx => hte hx.symm)]
        exact hall t ht
    | forget => simp [allowedB, isCall] at hB
    | forgetAll => simp [allowedB, isCall] at hB
    | resetStats => simp [allowedB, isCall] at hB

theorem censusA_steps {S : Scenario} {c c' : Config} {tr : List Label} {nw nl : Nat}
    (hsteps : Steps c tr c') (hall : ∀ l ∈ tr, allowedA l = true)
    (hc : CensusA S c nw nl) :
    CensusA S c' (nw + countWork tr) (nl + countLead tr) :=
  steps_invariant (fun _ _ _ _ _ hstep hA hP => censusA_step hstep hA hP) hsteps hall hc

theorem censusB_steps {S : Scenario} {c c' : Config} {tr : List Label} {nw : Nat}
    (hsteps : Steps c tr c') (hall : ∀ l ∈ tr, allowedB l = true)
    (hc : CensusB S c nw) :
    CensusB S c' (nw + countWork tr) ∧ countLead tr = 0 := by
  have h := steps_invariant (P := fun c nw nl => CensusB S c nw ∧ nl = 0)
    (fun _ _ _ _ _ hstep hB hP => by
      obtain ⟨hcc, hz⟩ := hP
      obtain ⟨hc2, hl⟩ := censusB_step hstep hB hcc
      exact ⟨hc2, by omega⟩) hsteps hall ⟨hc, rfl⟩
  refine ⟨h.1, ?_⟩
  have := h.2
  omega

theorem isStart_isDone_false {ph : Phase} (h1 : isStart ph = true)
    (h2 : isDone ph = true) : False := by
  cases ph <;> simp_all [isStart, isDone]

/-- Once no thread is still at `start`, the phase-A census is the phase-B
census with exactly one leader elected. -/
theorem censusA_to_B {S : Scenario} {c : Config} {nw nl : Nat}
    (hc : CensusA S c nw nl) (hN : 1 ≤ S.N)
    (hns : ∀ ph ∈ c.threads, isStart ph = false) :
    CensusB S c nw ∧ nl = 1 := by
  cases hc with
  | idle =>
    have h0 := S.initConfig_threads (t := 0) hN
    have := hns _ (List.getElem?_mem h0)
    simp [Scenario.startPh, isStart] at this
  | run L ts H hL hlen hLph hoth hH =>
    have hoth' : ∀ t : Nat, t < S.N → t ≠ L → ts[t]? = some (.waiting 0) := by
      intro t ht htL
      rcases hoth t ht htL with h | h
      · have := hns _ (List.getElem?_mem h)
        simp [Scenario.startPh, isStart] at this
      · exact h
    have hcs : countStart ts = 0 := countStart_eq_zero (fun ph hm => hns ph hm)
    have hHeq : H = S.N - 1 := by omega
    subst hHeq
    exact ⟨CensusB.run L ts hL hlen hLph hoth', rfl⟩
  | fin L ts H hL hlen hLph hoth hH =>
    have hoth' : ∀ t : Nat, t < S.N → t ≠ L → ts[t]? = some (.waiting 0) := by
      intro t ht htL
      rcases hoth t ht htL with h | h
      · have := hns _ (List.getElem?_mem h)
        simp [Scenario.startPh, isStart] at this
      · exact h
    have hcs : countStart ts = 0 := countStart_eq_zero (fun ph hm => hns ph hm)
    have hHeq : H = S.N - 1 := by omega
    subst hHeq
    exact ⟨CensusB.fin L ts hL hlen hLph hoth', rfl⟩

/-- Complete behaviour of the overlapping-calls scenario: some leader `L`
is elected; when every call has returned, the work ran exactly once,
exactly one caller became leader, every caller returned the leader's
outcome, and the coordinator holds no registry entry, final stats
`hits = N - 1`, `misses = 1`, `errors` 1 exactly on a failing work
function, `in_flight = 0`. -/
theorem scenario_run (S : Scenario) {tr1 tr2 : List Label} {c : Config}
    (hN : 1 ≤ S.N)
    (hsteps : Steps S.initConfig (tr1 ++ tr2) c)
    (h1 : ∀ l ∈ tr1, allowedA l = true)
    (h2 : ∀ l ∈ tr2, allowedB l = true)
    (hdone : allDone c) :
    ∃ L, L < S.N ∧
      (∀ t : Nat, t < S.N → c.threads[t]? = some (.done (.ret (some (S.outf L))))) ∧
      countWork (tr1 ++ tr2) = 1 ∧ countLead (tr1 ++ tr2) = 1 ∧
      c.shared = ⟨[], [⟨outcomeRes (S.outf L), true⟩],
        ⟨S.N - 1, 1, errInc (S.outf L), 0⟩⟩ := by
  obtain ⟨cm, hs1, hs2⟩ := hsteps.append_split
  have hcA : CensusA S cm (0 + countWork tr1) (0 + countLead tr1) :=
    censusA_steps hs1 h1 CensusA.idle
  rw [Nat.zero_add, Nat.zero_add] at hcA
  have hns : ∀ ph ∈ cm.threads, isStart ph = false := by
    intro ph hm
    by_contra hb
    rw [Bool.not_eq_false] at hb
    obtain ⟨tid, htid⟩ := List.getElem?_of_mem hm
    have hreg : ∀ l ∈ tr2, isReg l = false := by
      intro l hm2
      have := h2 l hm2
      simp [allowedB] at this
      exact this.2
    have hc' := start_persists hs2 hreg tid ph hb htid
    exact isStart_isDone_false hb (hdone ph (List.getElem?_mem hc'))
  obtain ⟨hcB, hnl1⟩ := censusA_to_B hcA hN hns
  obtain ⟨hcB', hnl2⟩ := censusB_steps hs2 h2 hcB
  generalize hnw : countWork tr1 + countWork tr2 = nww at hcB'
  cases hcB' with
  | run L ts hL hlen hLph hoth =>
    have := hdone _ (List.getElem?_mem hLph)
    simp [isDone] at this
  | fin L ts hL hlen hLph hoth =>
    have := hdone _ (List.getElem?_mem hLph)
    simp [isDone] at this
  | sig L ts hL hlen hLph hoth =>
    have := hdone _ (List.getElem?_mem hLph)
    simp [isDone] at this
  | post L ts hL hlen hall =>
    refine ⟨L, hL, ?_, ?_, ?_, rfl⟩
    · intro t ht
      rcases hall t ht with h | h
      · have := hdone _ (List.getElem?_mem h)
        simp [isDone] at this
      · exact h
    · rw [countWork_append]
      omega
    · rw [countLead_append]
      omega

/-! ### Enabled and impossible steps; terminal phases -/

/-- Destructing a list update never moves a `done` thread: `call` has
returned, its phase is final. -/
theorem done_persists_step {c c' : Config} {l : Label} {tid : Nat} {r : RetVal}
    (hth : c.threads[tid]? = some (.done r)) (hstep : Step c l c') :
    c'.threads[tid]? = some (.done r) := by
  cases hstep with
  | keyError h1 h2 =>
    rename_i tid' key fmod fname gen out e
    by_cases he : tid = tid'
    · subst he
      rw [hth] at h1
      exact Phase.noConfusion (Option.some.inj h1)
    · simpa [List.getElem?_set_ne (fun hx => he hx.symm)] using hth
  | lead h1 h2 h3 =>
    rename_i tid' key fmod fname gen out k
    by_cases he : tid = tid'
    · subst he
      rw [hth] at h1
      exact Phase.noConfusion (Option.some.inj h1)
    · simpa [List.getElem?_set_ne (fun hx => he hx.symm)] using hth
  | follow h1 h2 h3 =>
    rename_i tid' key fmod fname gen out k cid
    by_cases he : tid = tid'
    · subst he
      rw [hth] at h1
      exact Phase.noConfusion (Option.some.inj h1)
    · simpa [List.getElem?_set_ne (fun hx => he hx.symm)] using hth
  | work h1 =>
    rename_i tid' k cid out
    by_cases he : tid = tid'
    · subst he
      rw [hth] at h1
      exact Phase.noConfusion (Option.some.inj h1)
    · simpa [List.getElem?_set_ne (fun hx => he hx.symm)] using hth
  | cleanup h1 =>
    rename_i tid' k cid
    by_cases he : tid = tid'
    · subst he
      rw [hth] at h1
      exact Phase.noConfusion (Option.some.inj h1)
    · simpa [List.getElem?_set_ne (fun hx => he hx.symm)] using hth
  | setEvent h1 =>
    rename_i tid' cid
    by_cases he : tid = tid'
    · subst he
      rw [hth] at h1
      exact Phase.noConfusion (Option.some.inj h1)
    · simpa [List.getElem?_set_ne (fun hx => he hx.symm)] using hth
  | ret h1 h2 h3 =>
    rename_i tid' cid pc
    by_cases he : tid = tid'
    · subst he
      rw [hth] at h1
      exact Phase.noConfusion (Option.some.inj h1)
    · simpa [List.getElem?_set_ne (fun hx => he hx.symm)] using hth
  | forget => exact hth
  | forgetAll => exact hth
  | resetStats => exact hth

/-- A `start` thread whose key resolves and finds no registry entry can
only become leader; attaching as follower is impossible. -/
theorem lead_enabled {c : Config} {tid : Nat} {key : Option String}
    {fmod fname : String} {gen : KeyGen} {out : Outcome} {k : String}
    (hth : c.threads[tid]? = some (.start key fmod fname gen out))
    (hres : resolvedKey key fmod fname gen = .ok k)
    (hlook : rlookup c.shared.in_flight k = none) :
    (∃ c', Step c (.lead tid k c.shared.calls.length) c') ∧
      ∀ (cid : Nat) (c' : Config), ¬ Step c (.follow tid k cid) c' := by
  refine ⟨⟨_, Step.lead hth hres hlook⟩, ?_⟩
  intro cid c' hstep
  cases hstep with
  | follow h1 h2 h3 =>
    rw [hlook] at h3
    exact Option.noConfusion h3

/-- A `start` thread whose key derivation raises can only take the
`keyError` step: registration (leader or follower) and the work function
are unreachable for it. -/
theorem keyError_enabled {c : Config} {tid : Nat} {key : Option String}
    {fmod fname : String} {gen : KeyGen} {out : Outcome} {e : Nat}
    (hth : c.threads[tid]? = some (.start key fmod fname gen out))
    (hres : resolvedKey key fmod fname gen = .exc e) :
    (∃ c', Step c (.keyError tid e) c') ∧
    (∀ (k : String) (cid : Nat) (c' : Config), ¬ Step c (.lead tid k cid) c') ∧
    (∀ (k : String) (cid : Nat) (c' : Config), ¬ Step c (.follow tid k cid) c') ∧
    (∀ (cid : Nat) (c' : Config), ¬ Step c (.work tid cid) c') := by
  refine ⟨⟨_, Step.keyError hth hres⟩, ?_, ?_, ?_⟩
  · intro k cid c' hstep
    cases hstep with
    | lead h1 h2 h3 =>
      have heq := Option.some.inj (hth.symm.trans h1)
      injection heq with e1 e2 e3 e4 e5
      subst e1; subst e2; subst e3; subst e4
      rw [hres] at h2
      exact KeyGen.noConfusion h2
  · intro k cid c' hstep
    cases hstep with
    | follow h1 h2 h3 =>
      have heq := Option.some.inj (hth.symm.trans h1)
      injection heq with e1 e2 e3 e4 e5
      subst e1; subst e2; subst e3; subst e4
      rw [hres] at h2
      exact KeyGen.noConfusion h2
  · intro cid c' hstep
    cases hstep with
    | work h1 => exact Phase.noConfusion (Option.some.inj (hth.symm.trans h1))

/-- `Steps.refl` up to a proved configuration equality, for assembling
concrete executions whose endpoint is written as a literal. -/
theorem Steps.refl_of_eq {c c' : Config} (h : c = c') : Steps c [] c' :=
  h ▸ Steps.refl c

/-! ### Concrete executions -/

/-- Two concurrent callers with explicit key `"K"`; the would-be outcomes
are `ok 10` and `ok 11`, so only coalescing can make both return 10. -/
def sc2 : Scenario :=
  ⟨2, "K", fun _ => some "K", fun _ => "m", fun _ => "f", fun _ => .ok "",
   fun i => .ok (10 + i),
   fun _ => (by decide : resolvedKey (some "K") "m" "f" (.ok "") = .ok "K")⟩

def c1tr1 : List Label := [.lead 0 "K" 0, .follow 1 "K" 0]

def c1tr2 : List Label := [.work 0 0, .cleanup 0 "K" 0, .setEvent 0 0, .ret 0 0, .ret 1 0]

def sc2Final : Config :=
  ⟨[.done (.ret (some (.ok 10))), .done (.ret (some (.ok 10)))],
   ⟨[], [⟨.value 10, true⟩], ⟨1, 1, 0, 0⟩⟩⟩

theorem sc2_steps : Steps sc2.initConfig (c1tr1 ++ c1tr2) sc2Final :=
  Steps.cons (@Step.lead sc2.initConfig 0 (some "K") "m" "f" (.ok "") (.ok 10) "K"
      (by decide) (by decide) (by decide))
  (Steps.cons (@Step.follow _ 1 (some "K") "m" "f" (.ok "") (.ok 11) "K" 0
      (by decide) (by decide) (by decide))
  (Steps.cons (@Step.work _ 0 "K" 0 (.ok 10) (by decide))
  (Steps.cons (@Step.cleanup _ 0 "K" 0 (by decide))
  (Steps.cons (@Step.setEvent _ 0 0 (by decide))
  (Steps.cons (@Step.ret _ 0 0 ⟨.value 10, true⟩ (by decide) (by decide) (by decide))
  (Steps.cons (@Step.ret _ 1 0 ⟨.value 10, true⟩ (by decide) (by decide) (by decide))
  (Steps.refl_of_eq (by decide))))))))

/-- Two concurrent callers whose work raises: exceptions `err 20` and
`err 21`; coalescing delivers the leader's `err 20` to both. -/
def sc2e : Scenario :=
  ⟨2, "K", fun _ => some "K", fun _ => "m", fun _ => "f", fun _ => .ok "",
   fun i => .err (20 + i),
   fun _ => (by decide : resolvedKey (some "K") "m" "f" (.ok "") = .ok "K")⟩

def sc2eFinal : Config :=
  ⟨[.done (.ret (some (.err 20))), .done (.ret (some (.err 20)))],
   ⟨[], [⟨.error 20, true⟩], ⟨1, 1, 1, 0⟩⟩⟩

theorem sc2e_steps : Steps sc2e.initConfig (c1tr1 ++ c1tr2) sc2eFinal :=
  Steps.cons (@Step.lead sc2e.initConfig 0 (some "K") "m" "f" (.ok "") (.err 20) "K"
      (by decide) (by decide) (by decide))
  (Steps.cons (@Step.follow _ 1 (some "K") "m" "f" (.ok "") (.err 21) "K" 0
      (by decide) (by decide) (by decide))
  (Steps.cons (@Step.work _ 0 "K" 0 (.err 20) (by decide))
  (Steps.cons (@Step.cleanup _ 0 "K" 0 (by decide))
  (Steps.cons (@Step.setEvent _ 0 0 (by decide))
  (Steps.cons (@Step.ret _ 0 0 ⟨.error 20, true⟩ (by decide) (by decide) (by decide))
  (Steps.cons (@Step.ret _ 1 0 ⟨.error 20, true⟩ (by decide) (by decide) (by decide))
  (Steps.refl_of_eq (by decide))))))))

/-- Forget scenario (spec §8): a leader in flight for `"K"` with one
attached follower, a `forget`, then a new call for `"K"` before the first
leader finishes.  Outcomes: `ok 1` (first leader), `ok 7` (follower's own
work, never executed), `ok 2` (new leader). -/
def forgetInit : Config :=
  ⟨[.start (some "K") "m" "f" (.ok "") (.ok 1),
    .start (some "K") "m" "f" (.ok "") (.ok 7),
    .start (some "K") "m" "f" (.ok "") (.ok 2)], SharedCall.init⟩

def forgetTrace : List Label :=
  [.lead 0 "K" 0, .follow 1 "K" 0, .forget "K", .lead 2 "K" 1,
   .work 0 0, .cleanup 0 "K" 0, .setEvent 0 0, .ret 0 0, .ret 1 0,
   .work 2 1, .cleanup 2 "K" 1, .setEvent 2 1, .ret 2 1]

def forgetFinal : Config :=
  ⟨[.done (.ret (some (.ok 1))), .done (.ret (some (.ok 1))),
    .done (.ret (some (.ok 2)))],
   ⟨[], [⟨.value 1, true⟩, ⟨.value 2, true⟩], ⟨1, 2, 0, 0⟩⟩⟩

theorem forget_steps : Steps forgetInit forgetTrace forgetFinal :=
  Steps.cons (@Step.lead forgetInit 0 (some "K") "m" "f" (.ok "") (.ok 1) "K"
      (by decide) (by decide) (by decide))
  (Steps.cons (@Step.follow _ 1 (some "K") "m" "f" (.ok "") (.ok 7) "K" 0
      (by decide) (by decide) (by decide))
  (Steps.cons (@Step.forget _ "K")
  (Steps.cons (@Step.lead _ 2 (some "K") "m" "f" (.ok "") (.ok 2) "K"
      (by decide) (by decide) (by decide))
  (Steps.cons (@Step.work _ 0 "K" 0 (.ok 1) (by decide))
  (Steps.cons (@Step.cleanup _ 0 "K" 0 (by decide))
  (Steps.cons (@Step.setEvent _ 0 0 (by decide))
  (Steps.cons (@Step.ret _ 0 0 ⟨.value 1, true⟩ (by decide) (by decide) (by decide))
  (Steps.cons (@Step.ret _ 1 0 ⟨.value 1, true⟩ (by decide) (by decide) (by decide))
  (Steps.cons (@Step.work _ 2 "K" 1 (.ok 2) (by decide))
  (Steps.cons (@Step.cleanup _ 2 "K" 1 (by decide))
  (Steps.cons (@Step.setEvent _ 2 1 (by decide))
  (Steps.cons (@Step.ret _ 2 1 ⟨.value 2, true⟩ (by decide) (by decide) (by decide))
  (Steps.refl_of_eq (by decide))))))))))))))

/-- A single caller with explicit key `"K"` about to start on a fresh
coordinator. -/
def oneInit : Config :=
  ⟨[.start (some "K") "m" "f" (.ok "") (.ok 5)], SharedCall.init⟩

/-- Two callers with explicit key `"K"` on a fresh coordinator. -/
def twoInit : Config :=
  ⟨[.start (some "K") "m" "f" (.ok "") (.ok 1),
    .start (some "K") "m" "f" (.ok "") (.ok 2)], SharedCall.init⟩

/-- After leader 0 registered record 0, a `forget`, leader 1 registered
record 1 under the same key, and leader 0 ran its work. -/
def popMid : Config :=
  ⟨[.finishing "K" 0, .running "K" 1 (.ok 2)],
   ⟨[("K", 1)], [⟨.value 1, false⟩, ⟨.unset, false⟩], ⟨0, 2, 0, 2⟩⟩⟩

theorem popMid_steps :
    Steps twoInit [.lead 0 "K" 0, .forget "K", .lead 1 "K" 1, .work 0 0] popMid :=
  Steps.cons (@Step.lead twoInit 0 (some "K") "m" "f" (.ok "") (.ok 1) "K"
      (by decide) (by decide) (by decide))
  (Steps.cons (@Step.forget _ "K")
  (Steps.cons (@Step.lead _ 1 (some "K") "m" "f" (.ok "") (.ok 2) "K"
      (by decide) (by decide) (by decide))
  (Steps.cons (@Step.work _ 0 "K" 0 (.ok 1) (by decide))
  (Steps.refl_of_eq (by decide)))))

/-- The two-caller configuration right after thread 0 registered as
leader: record 0 lives in the registry with its event unset. -/
def twoAfterLead : Config :=
  ⟨[.running "K" 0 (.ok 1), .start (some "K") "m" "f" (.ok "") (.ok 2)],
   ⟨[("K", 0)], [⟨.unset, false⟩], ⟨0, 1, 0, 1⟩⟩⟩

theorem twoAfterLead_steps : Steps twoInit [.lead 0 "K" 0] twoAfterLead :=
  Steps.cons (@Step.lead twoInit 0 (some "K") "m" "f" (.ok "") (.ok 1) "K"
    (by decide) (by decide) (by decide)) (Steps.refl_of_eq (by decide))

/-! ### Claim theorems -/

/-- C1: for every `N ≥ 1` concurrent invocations of `call` that share one
key and overlap in time (formalised as: the trace splits as `tr1 ++ tr2`
where all registrations happen in `tr1`, before any leader registry
cleanup, and no maintenance method runs), the work function executes
exactly once, exactly one caller becomes leader, and all `N` invocations
return the same value — the leader's stored outcome, covering both the
success value and the shared failure instance.  In addition, registration
is atomic: a `lead` step for a key is possible only when no entry for that
key is registered, so no two callers can simultaneously become leader for
the same key. -/
theorem coalescing_exactly_once (S : Scenario) (tr1 tr2 : List Label) (c : Config)
    (hN : 1 ≤ S.N)
    (hsteps : Steps S.initConfig (tr1 ++ tr2) c)
    (h1 : ∀ l ∈ tr1, allowedA l = true)
    (h2 : ∀ l ∈ tr2, allowedB l = true)
    (hdone : allDone c) :
    (countWork (tr1 ++ tr2) = 1 ∧ countLead (tr1 ++ tr2) = 1 ∧
      ∃ L, L < S.N ∧ ∀ t : Nat, t < S.N →
        c.threads[t]? = some (.done (.ret (some (S.outf L))))) ∧
    ∀ (d d' : Config) (tid : Nat) (k : String) (cid : Nat),
      Step d (.lead tid k cid) d' → rlookup d.shared.in_flight k = none := by
  obtain ⟨L, hL, hthreads, hw, hl, hsh⟩ := scenario_run S hN hsteps h1 h2 hdone
  refine ⟨⟨hw, hl, L, hL, hthreads⟩, ?_⟩
  intro d d' tid k cid hstep
  cases hstep with
  | lead hx1 hx2 hx3 => exact hx3

/-- Witness for C1 at the concrete two-caller execution: the work ran
once, one leader was elected, both callers returned the same value, and a
concrete `lead` step certifies the no-entry precondition. -/
theorem coalescing_exactly_once_witness :
    countWork (c1tr1 ++ c1tr2) = 1 ∧ countLead (c1tr1 ++ c1tr2) = 1 ∧
      sc2Final.threads[0]? = sc2Final.threads[1]? ∧
      rlookup twoInit.shared.in_flight "K" = none := by
  obtain ⟨⟨hw, hl, L, hL, hth⟩, hmx⟩ :=
    coalescing_exactly_once sc2 c1tr1 c1tr2 sc2Final (by decide) sc2_steps
      (by decide) (by decide) (by decide)
  refine ⟨hw, hl, ?_, ?_⟩
  · rw [hth 0 (by decide), hth 1 (by decide)]
  · exact hmx twoInit _ 0 "K" 0
      (@Step.lead twoInit 0 (some "K") "m" "f" (.ok "") (.ok 1) "K"
        (by decide) (by decide) (by decide))

/-- C2: after `N ≥ 1` concurrent calls sharing one key have all completed
successfully on a fresh coordinator (same overlap formalisation as C1,
work function succeeding for every caller), `get_stats` returns
`misses = 1`, `hits = N - 1`, `in_flight = 0` and `errors = 0`. -/
theorem stats_after_success (S : Scenario) (tr1 tr2 : List Label) (c : Config)
    (hN : 1 ≤ S.N) (hok : ∀ i : Nat, ∃ v, S.outf i = .ok v)
    (hsteps : Steps S.initConfig (tr1 ++ tr2) c)
    (h1 : ∀ l ∈ tr1, allowedA l = true)
    (h2 : ∀ l ∈ tr2, allowedB l = true)
    (hdone : allDone c) :
    (SharedCall.get_stats c.shared).misses = 1 ∧
    (SharedCall.get_stats c.shared).hits = S.N - 1 ∧
    (SharedCall.get_stats c.shared).in_flight = 0 ∧
    (SharedCall.get_stats c.shared).errors = 0 := by
  obtain ⟨L, hL, _, _, _, hsh⟩ := scenario_run S hN hsteps h1 h2 hdone
  obtain ⟨v, hv⟩ := hok L
  rw [hsh]
  simp [SharedCall.get_stats, hv, errInc]

/-- Witness for C2 at the concrete two-caller execution. -/
theorem stats_after_success_witness :
    (SharedCall.get_stats sc2Final.shared).misses = 1 ∧
    (SharedCall.get_stats sc2Final.shared).hits = sc2.N - 1 ∧
    (SharedCall.get_stats sc2Final.shared).in_flight = 0 ∧
    (SharedCall.get_stats sc2Final.shared).errors = 0 :=
  stats_after_success sc2 c1tr1 c1tr2 sc2Final (by decide)
    (fun i => ⟨10 + i, rfl⟩) sc2_steps (by decide) (by decide) (by decide)

/-- C3: if the work function raises during the leader execution, every one
of the `N` coalesced callers (leader and followers) receives the same
failure instance — the one stored by the leader — the errors counter is
incremented exactly once (1, not `N`), and the failed entry is removed
from the registry, so a subsequent call for the key finds no entry and can
only become a new leader (never a follower). -/
theorem error_propagation (S : Scenario) (tr1 tr2 : List Label) (c : Config)
    (hN : 1 ≤ S.N) (herr : ∀ i : Nat, ∃ e, S.outf i = .err e)
    (hsteps : Steps S.initConfig (tr1 ++ tr2) c)
    (h1 : ∀ l ∈ tr1, allowedA l = true)
    (h2 : ∀ l ∈ tr2, allowedB l = true)
    (hdone : allDone c) :
    ∃ L e, L < S.N ∧ S.outf L = .err e ∧
      (∀ t : Nat, t < S.N → c.threads[t]? = some (.done (.ret (some (.err e))))) ∧
      (SharedCall.get_stats c.shared).errors = 1 ∧
      rlookup c.shared.in_flight S.k = none ∧
      ∀ (d : Config) (tid : Nat) (key : Option String) (fmod fname : String)
          (gen : KeyGen) (out : Outcome),
        d.threads[tid]? = some (.start key fmod fname gen out) →
        resolvedKey key fmod fname gen = .ok S.k →
        rlookup d.shared.in_flight S.k = rlookup c.shared.in_flight S.k →
        (∃ d', Step d (.lead tid S.k d.shared.calls.length) d') ∧
          ∀ (cid : Nat) (d' : Config), ¬ Step d (.follow tid S.k cid) d' := by
  obtain ⟨L, hL, hthreads, _, _, hsh⟩ := scenario_run S hN hsteps h1 h2 hdone
  obtain ⟨e, he⟩ := herr L
  have hlook : rlookup c.shared.in_flight S.k = none := by
    rw [hsh]
    rfl
  refine ⟨L, e, hL, he, ?_, ?_, hlook, ?_⟩
  · intro t ht
    rw [hthreads t ht, he]
  · rw [hsh]
    simp [SharedCall.get_stats, he, errInc]
  · intro d tid key fmod fname gen out hth hres hlk
    rw [hlook] at hlk
    exact lead_enabled hth hres hlk

/-- Witness for C3 at the concrete two-caller failing execution. -/
theorem error_propagation_witness :
    (SharedCall.get_stats sc2eFinal.shared).errors = 1 ∧
    sc2eFinal.threads[0]? = some (.done (.ret (some (.err 20)))) ∧
    sc2eFinal.threads[1]? = some (.done (.ret (some (.err 20)))) ∧
    rlookup sc2eFinal.shared.in_flight sc2e.k = none := by
  obtain ⟨L, e, hL, he, hth, herr1, hlook, _⟩ :=
    error_propagation sc2e c1tr1 c1tr2 sc2eFinal (by decide)
      (fun i => ⟨20 + i, rfl⟩) sc2e_steps (by decide) (by decide) (by decide)
  have h0 := hth 0 (by decide)
  have h0d : sc2eFinal.threads[0]? = some (.done (.ret (some (.err 20)))) := by decide
  have hee : e = 20 := by
    have := Option.some.inj (h0.symm.trans h0d)
    simpa using this
  subst hee
  exact ⟨herr1, h0, hth 1 (by decide), hlook⟩

/-- C4 (counterexample): the claim fails for the empty string.  An
explicit key `""` is NOT used unchanged: `if not key:` treats the empty
string like a missing key, so the coordinator derives the automatic
`<module>.<name>:<fingerprint>` key and registers under it; no entry is
ever created under `""`. -/
theorem explicit_key_counterexample :
    resolvedKey (some "") "m" "f" (.ok "args") = .ok "m.f:args" ∧
    ¬ resolvedKey (some "") "m" "f" (.ok "args") = .ok "" ∧
    ∃ c' : Config,
      Step ⟨[.start (some "") "m" "f" (.ok "args") (.ok 5)], SharedCall.init⟩
        (.lead 0 "m.f:args" 0) c' ∧
      rlookup c'.shared.in_flight "" = none ∧
      rlookup c'.shared.in_flight "m.f:args" = some 0 := by
  refine ⟨by decide, by decide, _,
    @Step.lead ⟨[.start (some "") "m" "f" (.ok "args") (.ok 5)], SharedCall.init⟩
      0 (some "") "m" "f" (.ok "args") (.ok 5) "m.f:args"
      (by decide) (by decide) (by decide), by decide, by decide⟩

/-- C4 (amended): a non-empty explicit key is used unchanged as the
`CallKey`; when the key is absent — or explicitly the empty string, which
Python's `if not key:` treats as absent — the key is derived automatically
as the work function's module-qualified name joined by `:` to the argument
fingerprint. -/
theorem explicit_nonempty_key_used_unchanged (k fmod fname : String) (gen : KeyGen)
    (s : String) (hk : k ≠ "") :
    resolvedKey (some k) fmod fname gen = .ok k ∧
    resolvedKey none fmod fname (.ok s) = .ok (fmod ++ "." ++ fname ++ ":" ++ s) ∧
    resolvedKey (some "") fmod fname gen = autoKey fmod fname gen ∧
    resolvedKey none fmod fname gen = autoKey fmod fname gen := by
  refine ⟨by simp [resolvedKey, hk], rfl, by simp [resolvedKey], rfl⟩

/-- Witness for the amended C4. -/
theorem explicit_nonempty_key_used_unchanged_witness :
    resolvedKey (some "K") "m" "f" (.ok "x") = .ok "K" ∧
    resolvedKey none "m" "f" (.ok "x") = .ok ("m" ++ "." ++ "f" ++ ":" ++ "x") ∧
    resolvedKey (some "") "m" "f" (.ok "x") = autoKey "m" "f" (.ok "x") ∧
    resolvedKey none "m" "f" (.ok "x") = autoKey "m" "f" (.ok "x") :=
  explicit_nonempty_key_used_unchanged "K" "m" "f" (.ok "x") "x" (by decide)

/-- C5 (counterexample): the claim's "only if that entry still maps to the
leader's own PendingCall" fails.  After leader 0 (record 0) registered,
a `forget` removed its entry and thread 1 registered a fresh record 1
under the same key; when leader 0 completes, its unconditional
`pop(key, None)` removes the NEWER entry (record 1) instead of leaving it
in place: the registry lookup goes from `some 1` to `none`. -/
theorem cleanup_removes_newer_entry_counterexample :
    Steps twoInit [.lead 0 "K" 0, .forget "K", .lead 1 "K" 1, .work 0 0] popMid ∧
    rlookup popMid.shared.in_flight "K" = some 1 ∧
    ∃ c2 : Config, Step popMid (.cleanup 0 "K" 0) c2 ∧
      rlookup c2.shared.in_flight "K" = none := by
  exact ⟨popMid_steps, by decide,
    _, @Step.cleanup popMid 0 "K" 0 (by decide), by decide⟩

/-- C5 (amended): when a leader finishes, its `finally` block removes
whatever registry entry is currently stored under its key — via
`pop(key, None)`, unconditionally, even a different PendingCall registered
after a `forget` — decrements `in_flight` by one, touches nothing else,
and the completion broadcast (`event.set()`) follows exactly once from the
leader's unique signaling phase, regardless of whether the removal found
its own entry. -/
theorem cleanup_unconditional_pop (c c' : Config) (tid : Nat) (k : String) (cid : Nat)
    (hstep : Step c (.cleanup tid k cid) c') :
    c.threads[tid]? = some (.finishing k cid) ∧
    c'.threads = c.threads.set tid (.signaling cid) ∧
    c'.shared.in_flight = rerase c.shared.in_flight k ∧
    rlookup c'.shared.in_flight k = none ∧
    c'.shared.calls = c.shared.calls ∧
    c'.shared.stats.in_flight = c.shared.stats.in_flight - 1 ∧
    c'.shared.stats.hits = c.shared.stats.hits ∧
    c'.shared.stats.misses = c.shared.stats.misses ∧
    c'.shared.stats.errors = c.shared.stats.errors ∧
    ∃ c'', Step c' (.setEvent tid cid) c'' := by
  cases hstep with
  | cleanup h1 =>
    have hlt : tid < c.threads.length := getElem?_some_lt h1
    exact ⟨h1, rfl, rfl, rlookup_rerase_self _ _, rfl, rfl, rfl, rfl, rfl,
      _, Step.setEvent (List.getElem?_set_self hlt)⟩

/-- Witness for the amended C5, at the concrete post-forget configuration
where the registry holds the newer record 1. -/
theorem cleanup_unconditional_pop_witness :
    ∃ c2 : Config, rlookup c2.shared.in_flight "K" = none ∧
      c2.shared.stats.in_flight = 1 := by
  have h := cleanup_unconditional_pop popMid _ 0 "K" 0
    (@Step.cleanup popMid 0 "K" 0 (by decide))
  obtain ⟨_, _, _, h4, _, h6, _⟩ := h
  refine ⟨_, h4, ?_⟩
  rw [h6]
  decide

/-- C6 (counterexample): the claimed invariant "`in_flight` equals the
number of registered keys at every observation point outside a critical
section, preserved by every operation" fails at `forget`: with a leader in
flight, `forget` removes the registry entry without decrementing the
counter, leaving `in_flight = 1` while the registry is empty — observable
through `get_stats` with the lock free. -/
theorem in_flight_counterexample :
    ∃ c : Config, Steps oneInit [.lead 0 "K" 0, .forget "K"] c ∧
      c.shared.stats.in_flight = 1 ∧ c.shared.in_flight.length = 0 := by
  refine ⟨_, Steps.cons (@Step.lead oneInit 0 (some "K") "m" "f" (.ok "") (.ok 5) "K"
      (by decide) (by decide) (by decide))
    (Steps.cons (@Step.forget _ "K") (Steps.refl _)), by decide, by decide⟩

/-- C6 (amended): the invariant `stats.in_flight = number of registered
keys` (in particular non-negativity) holds at every point outside a
critical section in every execution that uses only `call` steps — leader
registration and completion preserve it — but `forget` / `forget_all`
remove entries without decrementing the counter and `reset_stats` zeroes
the counter without clearing the registry, so it is not preserved by those
operations (see the counterexample). -/
theorem in_flight_matches_registry_call_only (c0 c : Config) (tr : List Label)
    (hst : ∀ ph ∈ c0.threads, isStart ph = true)
    (hsh : c0.shared = SharedCall.init)
    (hsteps : Steps c0 tr c) (hcall : ∀ l ∈ tr, isCall l = true) :
    c.shared.stats.in_flight = (c.shared.in_flight.length : Int) ∧
    0 ≤ c.shared.stats.in_flight := by
  have h := (callInv_steps hsteps hcall (callInv_init hst hsh)).flight_len
  refine ⟨h, ?_⟩
  rw [h]
  exact Int.natCast_nonneg _

/-- Witness for the amended C6, after one call-only step. -/
theorem in_flight_matches_registry_call_only_witness :
    twoAfterLead.shared.stats.in_flight = (twoAfterLead.shared.in_flight.length : Int) ∧
    0 ≤ twoAfterLead.shared.stats.in_flight :=
  in_flight_matches_registry_call_only twoInit twoAfterLead [.lead 0 "K" 0]
    (by decide) rfl twoAfterLead_steps (by decide)

/-- C7: `forget(key)` removes the registry entry for the key if present
and has no other effect — threads, pending records and stats are
untouched, and other keys' entries are preserved (see `rerase`).  An
in-progress leader still runs to completion and every follower already
attached to its record still receives the original outcome, because they
hold the record directly rather than a fresh registry lookup, while any
new call for the key arriving after the `forget` finds no entry and can
only become an independent leader.  In the spec's forget scenario
(leader + follower in flight for `K`, `forget K`, fresh call for `K`) the
work executes exactly 2 times in total: the original pair returns the
first outcome, the new call the second. -/
theorem forget_semantics :
    (∀ (c c' : Config) (k : String), Step c (.forget k) c' →
      c'.threads = c.threads ∧ c'.shared.calls = c.shared.calls ∧
      c'.shared.stats = c.shared.stats ∧
      c'.shared.in_flight = rerase c.shared.in_flight k ∧
      rlookup c'.shared.in_flight k = none) ∧
    (∀ (c : Config) (tid : Nat) (key : Option String) (fmod fname : String)
        (gen : KeyGen) (out : Outcome) (k : String),
      c.threads[tid]? = some (.start key fmod fname gen out) →
      resolvedKey key fmod fname gen = .ok k →
      rlookup c.shared.in_flight k = none →
      (∃ c', Step c (.lead tid k c.shared.calls.length) c') ∧
        ∀ (cid : Nat) (c' : Config), ¬ Step c (.follow tid k cid) c') ∧
    (Steps forgetInit forgetTrace forgetFinal ∧ countWork forgetTrace = 2 ∧
      forgetFinal.threads[0]? = some (.done (.ret (some (.ok 1)))) ∧
      forgetFinal.threads[1]? = some (.done (.ret (some (.ok 1)))) ∧
      forgetFinal.threads[2]? = some (.done (.ret (some (.ok 2))))) := by
  refine ⟨?_, ?_, forget_steps, by decide, by decide, by decide, by decide⟩
  · intro c c' k hstep
    cases hstep with
    | forget => exact ⟨rfl, rfl, rfl, rfl, rlookup_rerase_self _ _⟩
  · intro c tid key fmod fname gen out k hth hres hlook
    exact lead_enabled hth hres hlook

/-- Witness for C7: a concrete `forget` step leaves the stats untouched
and empties the lookup for its key, while the scenario trace contains
exactly 2 work executions. -/
theorem forget_semantics_witness :
    ∃ c' : Config, c'.shared.stats = (⟨0, 1, 0, 1⟩ : Stats) ∧
      rlookup c'.shared.in_flight "K" = none ∧ countWork forgetTrace = 2 := by
  obtain ⟨hfr, _, _, hcw, _⟩ := forget_semantics
  obtain ⟨_, _, hst, _, hlk⟩ := hfr
    ⟨[Phase.waiting 0], ⟨[("K", 0)], [⟨.unset, false⟩], ⟨0, 1, 0, 1⟩⟩⟩ _ "K"
    Step.forget
  exact ⟨_, by rw [hst], hlk, hcw⟩

/-- C8: in every execution from a fresh coordinator — including executions
with `forget` / `forget_all` / `reset_stats` — every record reachable
through the registry has an unset completion event, so no caller ever
attaches as a follower to a PendingCall whose completion signal has
already been set (a `follow` step only ever captures an event-unset
record).  Consequently a call that finds no registry entry for its key —
as any call arriving after that key's previous call resolved does, since
the leader removes the entry before signaling — can only become a new
leader and re-execute the work. -/
theorem no_follower_joins_resolved (c0 c : Config) (tr : List Label)
    (hst : ∀ ph ∈ c0.threads, isStart ph = true)
    (hsh : c0.shared = SharedCall.init)
    (hsteps : Steps c0 tr c) :
    (∀ (k : String) (cid : Nat), (k, cid) ∈ c.shared.in_flight →
      ∃ pc, c.shared.calls[cid]? = some pc ∧ pc.event = false) ∧
    (∀ (tid : Nat) (k : String) (cid : Nat) (c' : Config),
      Step c (.follow tid k cid) c' →
      ∃ pc, c.shared.calls[cid]? = some pc ∧ pc.event = false) ∧
    (∀ (tid : Nat) (key : Option String) (fmod fname : String) (gen : KeyGen)
        (out : Outcome) (k : String),
      c.threads[tid]? = some (.start key fmod fname gen out) →
      resolvedKey key fmod fname gen = .ok k →
      rlookup c.shared.in_flight k = none →
      ∃ c', Step c (.lead tid k c.shared.calls.length) c') := by
  have hinv := sysInv_steps hsteps (inv_init hst hsh)
  refine ⟨hinv.reg_event, ?_, ?_⟩
  · intro tid k cid c' hstep
    cases hstep with
    | follow hx1 hx2 hx3 => exact hinv.reg_event k cid (rlookup_mem hx3)
  · intro tid key fmod fname gen out k hth hres hlook
    exact ⟨_, Step.lead hth hres hlook⟩

/-- Witness for C8: after a concrete leader registration the registered
record has an unset event. -/
theorem no_follower_joins_resolved_witness :
    ∃ pc, twoAfterLead.shared.calls[0]? = some pc ∧ pc.event = false :=
  (no_follower_joins_resolved twoInit twoAfterLead [.lead 0 "K" 0]
    (by decide) rfl twoAfterLead_steps).1 "K" 0 (by decide)

/-- C9: if automatic key derivation raises for a call's arguments, the
exception propagates to that single caller only — the `keyError` step
sets only that thread's phase, every other thread's phase is unchanged,
and the shared state (registry, record heap, all stats counters) is
exactly the state before — the work function is never invoked for that
call (no `lead` / `follow` / `work` step is possible for the thread, and
once the call has returned its phase is final). -/
theorem key_derivation_error_isolated :
    (∀ (c c' : Config) (tid e : Nat), Step c (.keyError tid e) c' →
      c'.shared = c.shared ∧
      c'.threads = c.threads.set tid (.done (.keyFail e)) ∧
      ∀ t : Nat, t ≠ tid → c'.threads[t]? = c.threads[t]?) ∧
    (∀ (c : Config) (tid : Nat) (key : Option String) (fmod fname : String)
        (gen : KeyGen) (out : Outcome) (e : Nat),
      c.threads[tid]? = some (.start key fmod fname gen out) →
      resolvedKey key fmod fname gen = .exc e →
      (∃ c', Step c (.keyError tid e) c') ∧
      (∀ (k : String) (cid : Nat) (c' : Config), ¬ Step c (.lead tid k cid) c') ∧
      (∀ (k : String) (cid : Nat) (c' : Config), ¬ Step c (.follow tid k cid) c') ∧
      (∀ (cid : Nat) (c' : Config), ¬ Step c (.work tid cid) c')) ∧
    (∀ (c c' : Config) (tid : Nat) (r : RetVal) (l : Label),
      c.threads[tid]? = some (.done r) → Step c l c' →
      c'.threads[tid]? = some (.done r)) := by
  refine ⟨?_,
    fun c tid key fmod fname gen out e hth hres => keyError_enabled hth hres,
    fun c c' tid r l hth hstep => done_persists_step hth hstep⟩
  intro c c' tid e hstep
  cases hstep with
  | keyError hx1 hx2 =>
    exact ⟨rfl, rfl, fun t hne => List.getElem?_set_ne (fun hx => hne hx.symm)⟩

/-- Witness for C9: a caller whose `generate_key` raises code 3 returns
that failure while the shared state is untouched. -/
theorem key_derivation_error_isolated_witness :
    ∃ c' : Config,
      c'.shared = (⟨[.start none "m" "f" (.exc 3) (.ok 5)], SharedCall.init⟩ : Config).shared ∧
      c'.threads =
        (⟨[.start none "m" "f" (.exc 3) (.ok 5)], SharedCall.init⟩ : Config).threads.set 0
          (.done (.keyFail 3)) := by
  obtain ⟨hinv, _, _⟩ := key_derivation_error_isolated
  obtain ⟨hx1, hx2, _⟩ := hinv _ _ 0 3
    (@Step.keyError ⟨[.start none "m" "f" (.exc 3) (.ok 5)], SharedCall.init⟩
      0 none "m" "f" (.exc 3) (.ok 5) 3 (by decide) (by decide))
  exact ⟨_, hx1, hx2⟩

/-- After `reset_stats` mid-flight, the leader's completion decrements the
zeroed counter. -/
def resetFinal : Config :=
  ⟨[.done (.ret (some (.ok 5)))], ⟨[], [⟨.value 5, true⟩], ⟨0, 0, 0, -1⟩⟩⟩

/-- C10: if `reset_stats()` runs while a leader is in flight, then after
that leader completes, `get_stats` returns `in_flight = -1`: the leader's
`finally` block decrements the counter unconditionally and nothing bounds
it below by zero, so a negative value is observable at the public
interface. -/
theorem reset_mid_flight_negative_in_flight :
    Steps oneInit [.lead 0 "K" 0, .work 0 0, .resetStats, .cleanup 0 "K" 0,
      .setEvent 0 0, .ret 0 0] resetFinal ∧
    (SharedCall.get_stats resetFinal.shared).in_flight = -1 ∧
    allDone resetFinal := by
  refine ⟨?_, by decide, by decide⟩
  exact Steps.cons (@Step.lead oneInit 0 (some "K") "m" "f" (.ok "") (.ok 5) "K"
      (by decide) (by decide) (by decide))
    (Steps.cons (@Step.work _ 0 "K" 0 (.ok 5) (by decide))
    (Steps.cons (@Step.resetStats _)
    (Steps.cons (@Step.cleanup _ 0 "K" 0 (by decide))
    (Steps.cons (@Step.setEvent _ 0 0 (by decide))
    (Steps.cons (@Step.ret _ 0 0 ⟨.value 5, true⟩ (by decide) (by decide) (by decide))
    (Steps.refl_of_eq (by decide)))))))
